import Mathlib

/-!
Verification of the core algorithms of the spotify-playlist-archive source:
the cumulative-snapshot merge (`playlist_types.py`), the retry/budget request
engine (`spotify.py`), paginated track fetching (`spotify.py`), duplicate-name
disambiguation (`file_updater.py`), and cumulative-playlist JSON
serialization (`playlist_types.py`).

Conventions of the shallow embedding:
* Python `datetime.date` is a `Date` structure of numeric fields compared
  lexicographically, exactly as Python compares dates.
* Python `datetime.datetime` (only its `.date()` projection is ever used by
  the merge) is a `Timestamp` structure carrying its date and time-of-day.
* Python `float` seconds for retry budgets are modelled as `Rat`: every
  quantity involved in the claims is small and exact, and the sign of an
  IEEE-double subtraction of two doubles agrees with the exact sign, so the
  `<= 0` test in `RetryBudget.subtract` is faithfully represented.
* Python dicts keyed by track id are modelled by last-occurrence-wins lookup
  over the underlying list (`lookupBy`), matching dict-comprehension
  semantics; iteration over `set(a) | set(b)` is modelled by a duplicate-free
  list of keys (`unionKeys`) — no claim depends on the set's iteration order.
* `sorted(...)` is modelled by `List.insertionSort`, a stable sort, matching
  Python's stable sort; all sort keys used here are pairwise distinct anyway.
-/

namespace SPA

/-- Calendar date, as Python's `datetime.date`: compared lexicographically by
(year, month, day). Validity (month/day ranges) is a separate predicate. -/
structure Date where
  year : Nat
  month : Nat
  day : Nat
deriving DecidableEq

/-- Python `date <= date` comparison (lexicographic on (year, month, day)). -/
def Date.leb (a b : Date) : Bool :=
  if a.year ≠ b.year then a.year < b.year
  else if a.month ≠ b.month then a.month < b.month
  else a.day ≤ b.day

/-- Python `datetime.datetime`; the merge only ever uses its `.date()`. -/
structure Timestamp where
  date : Date
  hour : Nat
  minute : Nat
  second : Nat
deriving DecidableEq

/-- playlist_types.Owner -/
structure Owner where
  url : String
  name : String
deriving DecidableEq

/-- playlist_types.Album -/
structure Album where
  url : String
  name : String
deriving DecidableEq

/-- playlist_types.Artist -/
structure Artist where
  url : String
  name : String
deriving DecidableEq

/-- playlist_types.Track (current-snapshot track). Python `int` is `Int`. -/
structure Track where
  url : String
  name : String
  album : Album
  artists : List Artist
  duration_ms : Int
  added_at : Option Timestamp
deriving DecidableEq

/-- playlist_types.Playlist (current snapshot). `PlaylistID` values are
alphanumeric strings; the claims need only their string content. -/
structure Playlist where
  url : String
  original_name : String
  unique_name : String
  description : String
  tracks : List Track
  snapshot_id : String
  num_followers : Option Int
  owner : Owner
deriving DecidableEq

/-- playlist_types.CumulativeTrack -/
structure CumulativeTrack where
  url : String
  name : String
  album : Album
  artists : List Artist
  duration_ms : Int
  date_added : Date
  date_added_asterisk : Bool
  date_removed : Option Date
deriving DecidableEq

/-- playlist_types.CumulativePlaylist -/
structure CumulativePlaylist where
  url : String
  name : String
  description : String
  tracks : List CumulativeTrack
  date_first_scraped : Date
  published_playlist_ids : List String
deriving DecidableEq

/-- Python `str.split(sep)` for a one-character separator, over the string's
character list: splits at every occurrence, keeping empty pieces, and yields
`[""]` for the empty string. -/
def splitOnChar (sep : Char) : List Char → List (List Char)
  | [] => [[]]
  | c :: rest =>
      let r := splitOnChar sep rest
      if c = sep then [] :: r
      else
        match r with
        | [] => [[c]]
        | g :: gs => (c :: g) :: gs

/-- `url.split("/")[-1]` — the trailing path segment of a track URL.
The `isalnum` assertion of `get_id` is a dynamic abort that does not affect
the value computed when it passes, so it is not modelled. -/
def trackIdOfUrl (url : String) : String :=
  String.mk ((splitOnChar '/' url.data).getLastD [])

/-- Python `str.lower()`, character by character. -/
def pyLower (s : String) : String :=
  String.mk (s.data.map Char.toLower)

/-- Track.get_id -/
def Track.get_id (t : Track) : String := trackIdOfUrl t.url

/-- CumulativeTrack.get_id -/
def CumulativeTrack.get_id (t : CumulativeTrack) : String := trackIdOfUrl t.url

/-- Lookup in a Python dict built by `{key(x): x for x in l}`:
the last list element with the given key wins. -/
def lookupBy (key : α → String) (id : String) (l : List α) : Option α :=
  l.foldl (fun acc t => if key t = id then some t else acc) none

/-- Key list for iterating `set(current_tracks) | set(previous_tracks)`:
a duplicate-free list containing exactly the keys of both dicts. The set's
iteration order is unspecified in Python; first-occurrence order is used. -/
def unionKeys (curIds prevIds : List String) : List String :=
  (curIds ++ prevIds).dedup

/-- The cumulative track produced by the `if new_data:` assignments of
`CumulativePlaylist.update` before the old-date comparison: display fields
from `new_data`, `date_added` from the source-provided timestamp if present
else `today`, asterisk cleared, `date_removed = None`. -/
def freshTrack (today : Date) (n : Track) : CumulativeTrack :=
  { url := n.url
    name := n.name
    album := n.album
    artists := n.artists
    duration_ms := n.duration_ms
    date_added := (n.added_at.map Timestamp.date).getD today
    date_added_asterisk := false
    date_removed := none }

/-- The body of `CumulativePlaylist.update` for one track id, given the dict
lookups `old_data` and `new_data` (playlist_types.py lines 219-245). Returns
`none` only in the impossible both-absent case (the code asserts it away). -/
def mergeTrack (today : Date) :
    Option CumulativeTrack → Option Track → Option CumulativeTrack
  | none, none => none
  | some o, none =>
      -- removed from source: carry fields, date_removed = old or today
      some { o with date_removed := some (o.date_removed.getD today) }
  | none, some n => some (freshTrack today n)
  | some o, some n =>
      let base := freshTrack today n
      -- If the old date_added is earlier than what Spotify returned, use it
      if o.date_added.leb base.date_added then
        some { base with date_added := o.date_added
                         date_added_asterisk := o.date_added_asterisk }
      else
        some base

/-- The sort key of the updated track list (playlist_types.py lines 272-280):
`(name.lower(), tuple(artist.name.lower()), duration_ms, get_id())`, compared
as Python compares tuples (lexicographically). -/
def sortKey (t : CumulativeTrack) : String ×ₗ (List String ×ₗ (Int ×ₗ String)) :=
  toLex (pyLower t.name,
    toLex (t.artists.map (fun a => pyLower a.name),
      toLex (t.duration_ms, t.get_id)))

/-- Sort comparison used by `sorted(updated_tracks, key=...)`. -/
def trackLE (a b : CumulativeTrack) : Prop := sortKey a ≤ sortKey b

instance : DecidableRel trackLE :=
  fun a b => inferInstanceAs (Decidable (sortKey a ≤ sortKey b))

instance : IsTotal CumulativeTrack trackLE :=
  ⟨fun a b => le_total (sortKey a) (sortKey b)⟩

instance : IsTrans CumulativeTrack trackLE :=
  ⟨fun _ _ _ => le_trans⟩

/-- Strict version of the sort order (used to exploit key distinctness). -/
def trackLT (a b : CumulativeTrack) : Prop := sortKey a < sortKey b

instance : IsTrans CumulativeTrack trackLT :=
  ⟨fun _ _ _ => lt_trans⟩

instance : IsAntisymm CumulativeTrack trackLT :=
  ⟨fun _ _ h1 h2 => absurd (lt_trans h1 h2) (lt_irrefl _)⟩

/-- Python's `sorted` on the updated track list. -/
def sortCumulativeTracks (l : List CumulativeTrack) : List CumulativeTrack :=
  List.insertionSort trackLE l

/-- CumulativePlaylist.update (playlist_types.py lines 209-283). -/
def CumulativePlaylist.update (self : CumulativePlaylist) (today : Date)
    (playlist : Playlist) (published_playlist_ids : List String) :
    CumulativePlaylist :=
  let curLk := fun id => lookupBy Track.get_id id playlist.tracks
  let prevLk := fun id => lookupBy CumulativeTrack.get_id id self.tracks
  let ids := unionKeys (playlist.tracks.map Track.get_id)
    (self.tracks.map CumulativeTrack.get_id)
  let updated_tracks := ids.filterMap (fun id => mergeTrack today (prevLk id) (curLk id))
  { url := playlist.url
    name := playlist.unique_name
    description := playlist.description
    tracks := sortCumulativeTracks updated_tracks
    date_first_scraped := self.date_first_scraped
    published_playlist_ids := published_playlist_ids }

/-! Lemmas about the last-occurrence-wins dict lookup. -/

theorem foldl_lookup_no_match {α : Type} {key : α → String} {id : String}
    {l : List α} (h : ∀ t ∈ l, key t ≠ id) (acc : Option α) :
    l.foldl (fun acc t => if key t = id then some t else acc) acc = acc := by
  induction l generalizing acc with
  | nil => rfl
  | cons x xs ih =>
      simp only [List.foldl_cons]
      rw [if_neg (h x (List.mem_cons_self x xs))]
      exact ih (fun t ht => h t (List.mem_cons_of_mem _ ht)) acc

theorem foldl_lookup_eq_some {α : Type} {key : α → String} {id : String}
    {l : List α} {t : α} :
    ∀ {acc : Option α},
      l.foldl (fun acc t => if key t = id then some t else acc) acc = some t →
      (t ∈ l ∧ key t = id) ∨ acc = some t := by
  induction l with
  | nil => intro acc h; exact Or.inr h
  | cons x xs ih =>
      intro acc h
      simp only [List.foldl_cons] at h
      rcases ih h with h1 | h2
      · exact Or.inl ⟨List.mem_cons_of_mem _ h1.1, h1.2⟩
      · by_cases hx : key x = id
        · rw [if_pos hx, Option.some.injEq] at h2
          have hmem : t ∈ x :: xs := by rw [← h2]; exact List.mem_cons_self x xs
          have hkt : key t = id := by rw [← h2]; exact hx
          exact Or.inl ⟨hmem, hkt⟩
        · rw [if_neg hx] at h2
          exact Or.inr h2

theorem foldl_lookup_acc_isSome {α : Type} {key : α → String} {id : String}
    {l : List α} :
    ∀ {acc : Option α}, acc.isSome →
      (l.foldl (fun acc t => if key t = id then some t else acc) acc).isSome := by
  induction l with
  | nil => intro acc h; exact h
  | cons x xs ih =>
      intro acc h
      simp only [List.foldl_cons]
      apply ih
      by_cases hx : key x = id
      · rw [if_pos hx]; rfl
      · rw [if_neg hx]; exact h

theorem foldl_lookup_isSome {α : Type} {key : α → String} {id : String}
    {l : List α} {t : α} (ht : t ∈ l) (hk : key t = id) (acc : Option α) :
    (l.foldl (fun acc t => if key t = id then some t else acc) acc).isSome := by
  rcases List.append_of_mem ht with ⟨s, r, rfl⟩
  rw [List.foldl_append, List.foldl_cons, if_pos hk]
  exact foldl_lookup_acc_isSome rfl

theorem lookupBy_mem {α : Type} {key : α → String} {id : String}
    {l : List α} {t : α} (h : lookupBy key id l = some t) :
    t ∈ l ∧ key t = id := by
  rcases foldl_lookup_eq_some h with h1 | h2
  · exact h1
  · exact absurd h2 (by simp)

theorem lookupBy_eq_none_iff {α : Type} {key : α → String} {id : String}
    {l : List α} :
    lookupBy key id l = none ↔ ∀ t ∈ l, key t ≠ id := by
  constructor
  · intro h t ht hk
    have hs := @foldl_lookup_isSome α key id l t ht hk none
    rw [lookupBy] at h
    rw [h] at hs
    exact absurd hs (by simp)
  · intro h
    exact foldl_lookup_no_match h none

theorem lookupBy_eq_some_iff {α : Type} {key : α → String} {id : String}
    {l : List α} (hnd : (l.map key).Nodup) {t : α} :
    lookupBy key id l = some t ↔ t ∈ l ∧ key t = id := by
  constructor
  · exact lookupBy_mem
  · rintro ⟨ht, hk⟩
    induction l with
    | nil => cases ht
    | cons x xs ih =>
        rw [List.map_cons, List.nodup_cons] at hnd
        simp only [lookupBy, List.foldl_cons]
        rcases List.mem_cons.mp ht with rfl | hmem
        · rw [if_pos hk]
          apply foldl_lookup_no_match
          intro u hu hku
          exact hnd.1 (by rw [hk, ← hku]; exact List.mem_map_of_mem key hu)
        · have hx : key x ≠ id := by
            intro hxe
            exact hnd.1 (by rw [hxe, ← hk]; exact List.mem_map_of_mem key hmem)
          rw [if_neg hx]
          exact ih hnd.2 hmem

theorem lookupBy_id_mem {α : Type} {key : α → String} {id : String}
    {l : List α} {t : α} (h : lookupBy key id l = some t) :
    id ∈ l.map key :=
  (lookupBy_mem h).2 ▸ List.mem_map_of_mem key (lookupBy_mem h).1

theorem lookupBy_exists_of_mem_ids {α : Type} {key : α → String} {id : String}
    {l : List α} (h : id ∈ l.map key) :
    ∃ t, lookupBy key id l = some t := by
  rcases List.mem_map.mp h with ⟨a, ha, hk⟩
  exact Option.isSome_iff_exists.mp (foldl_lookup_isSome ha hk none)

/-! Basic shape lemmas about `mergeTrack` and `update`. -/

theorem mergeTrack_both (today : Date) (o : CumulativeTrack) (n : Track) :
    mergeTrack today (some o) (some n) =
      if o.date_added.leb (freshTrack today n).date_added then
        some { freshTrack today n with
               date_added := o.date_added
               date_added_asterisk := o.date_added_asterisk }
      else some (freshTrack today n) := rfl

theorem mergeTrack_new_fields {today : Date} {o? : Option CumulativeTrack}
    {n : Track} {t : CumulativeTrack}
    (h : mergeTrack today o? (some n) = some t) :
    t.url = n.url ∧ t.name = n.name ∧ t.album = n.album ∧
    t.artists = n.artists ∧ t.duration_ms = n.duration_ms ∧
    t.date_removed = none := by
  cases o? with
  | none =>
      rw [mergeTrack, Option.some.injEq] at h
      subst h
      exact ⟨rfl, rfl, rfl, rfl, rfl, rfl⟩
  | some o =>
      rw [mergeTrack_both] at h
      split at h <;>
        · rw [Option.some.injEq] at h
          subst h
          exact ⟨rfl, rfl, rfl, rfl, rfl, rfl⟩

theorem mergeTrack_old_only {today : Date} {o : CumulativeTrack}
    {t : CumulativeTrack} (h : mergeTrack today (some o) none = some t) :
    t = { o with date_removed := some (o.date_removed.getD today) } := by
  rw [mergeTrack, Option.some.injEq] at h
  exact h.symm

/-- The updated track list is a permutation of the per-id merge results. -/
theorem update_tracks_perm (self : CumulativePlaylist) (today : Date)
    (playlist : Playlist) (published : List String) :
    List.Perm (self.update today playlist published).tracks
      ((unionKeys (playlist.tracks.map Track.get_id)
          (self.tracks.map CumulativeTrack.get_id)).filterMap
        (fun id => mergeTrack today
          (lookupBy CumulativeTrack.get_id id self.tracks)
          (lookupBy Track.get_id id playlist.tracks))) := by
  simpa only [CumulativePlaylist.update, sortCumulativeTracks]
    using List.perm_insertionSort trackLE _

/-- C1: for a track id present in both the previous cumulative playlist and
the current playlist, the merged track takes its display fields from the
current track, has `date_removed = null`, and keeps the previous `date_added`
and asterisk when the previous `date_added` is at most the candidate (the
current track's `added_at` date if present, else `today`), otherwise adopts
the candidate with the asterisk cleared. -/
theorem update_track_present_in_both (self : CumulativePlaylist) (today : Date)
    (playlist : Playlist) (published : List String) (id : String)
    (o : CumulativeTrack) (n : Track)
    (hold : lookupBy CumulativeTrack.get_id id self.tracks = some o)
    (hnew : lookupBy Track.get_id id playlist.tracks = some n) :
    ∃ t ∈ (self.update today playlist published).tracks,
      t.url = n.url ∧ t.name = n.name ∧ t.album = n.album ∧
      t.artists = n.artists ∧ t.duration_ms = n.duration_ms ∧
      t.date_removed = none ∧
      (if o.date_added.leb ((n.added_at.map Timestamp.date).getD today) then
        t.date_added = o.date_added ∧
          t.date_added_asterisk = o.date_added_asterisk
      else
        t.date_added = (n.added_at.map Timestamp.date).getD today ∧
          t.date_added_asterisk = false) := by
  have hid : id ∈ unionKeys (playlist.tracks.map Track.get_id)
      (self.tracks.map CumulativeTrack.get_id) := by
    unfold unionKeys
    rw [List.mem_dedup]
    exact List.mem_append_left _ (lookupBy_id_mem hnew)
  have hperm := update_tracks_perm self today playlist published
  have hcand : (freshTrack today n).date_added =
      (n.added_at.map Timestamp.date).getD today := rfl
  by_cases hle : o.date_added.leb ((n.added_at.map Timestamp.date).getD today) = true
  · refine ⟨{ freshTrack today n with
              date_added := o.date_added
              date_added_asterisk := o.date_added_asterisk }, ?_, ?_⟩
    · apply hperm.mem_iff.mpr
      apply List.mem_filterMap.mpr
      refine ⟨id, hid, ?_⟩
      rw [hold, hnew, mergeTrack_both, hcand, if_pos hle]
    · rw [if_pos hle]
      exact ⟨rfl, rfl, rfl, rfl, rfl, rfl, rfl, rfl⟩
  · refine ⟨freshTrack today n, ?_, ?_⟩
    · apply hperm.mem_iff.mpr
      apply List.mem_filterMap.mpr
      refine ⟨id, hid, ?_⟩
      rw [hold, hnew, mergeTrack_both, hcand, if_neg hle]
    · rw [if_neg hle]
      exact ⟨rfl, rfl, rfl, rfl, rfl, rfl, rfl, rfl⟩

/-- C5: in any merge result, a track's `date_removed` is null exactly when
its id occurs among the ids of the current playlist's tracks. -/
theorem update_date_removed_iff (self : CumulativePlaylist) (today : Date)
    (playlist : Playlist) (published : List String) :
    ∀ t ∈ (self.update today playlist published).tracks,
      (t.date_removed = none ↔ t.get_id ∈ playlist.tracks.map Track.get_id) := by
  intro t ht
  have hperm := update_tracks_perm self today playlist published
  rcases List.mem_filterMap.mp (hperm.mem_iff.mp ht) with ⟨id, _, hmt⟩
  cases hcur : lookupBy Track.get_id id playlist.tracks with
  | some n =>
      rw [hcur] at hmt
      obtain ⟨hurl, -, -, -, -, hrem⟩ := mergeTrack_new_fields hmt
      have hgid : t.get_id = id := by
        rw [CumulativeTrack.get_id, hurl]
        exact (lookupBy_mem hcur).2
      constructor
      · intro _
        rw [hgid, ← (lookupBy_mem hcur).2]
        exact List.mem_map_of_mem Track.get_id (lookupBy_mem hcur).1
      · intro _
        exact hrem
  | none =>
      rw [hcur] at hmt
      cases hprev : lookupBy CumulativeTrack.get_id id self.tracks with
      | none =>
          rw [hprev] at hmt
          simp [mergeTrack] at hmt
      | some o =>
          rw [hprev] at hmt
          have hto := mergeTrack_old_only hmt
          have hgid : t.get_id = id := by
            rw [hto]
            exact (lookupBy_mem hprev).2
          constructor
          · intro hnone
            rw [hto] at hnone
            exact absurd hnone (by simp)
          · intro hmem
            rw [hgid] at hmem
            rcases lookupBy_exists_of_mem_ids hmem with ⟨n, hn⟩
            rw [hn] at hcur
            exact absurd hcur (by simp)

/-! Reachability from a freshly created cumulative playlist
(file_updater.py lines 259-271: empty track list, `date_first_scraped`
set to the creation day). -/

/-- The cumulative playlist created by `FileUpdater._update_files_impl` when
no previous cumulative JSON exists. -/
def freshCumulative (today : Date) : CumulativePlaylist :=
  { url := ""
    name := ""
    description := ""
    tracks := []
    date_first_scraped := today
    published_playlist_ids := [] }

/-- One archive run's merge inputs: the run date, the fetched playlist and
the external-reference list passed through to `update`. -/
structure UpdateStep where
  today : Date
  playlist : Playlist
  published_playlist_ids : List String
deriving DecidableEq

/-- A sequence of `update` calls applied to a cumulative playlist. -/
def applyUpdates (p : CumulativePlaylist) (steps : List UpdateStep) :
    CumulativePlaylist :=
  steps.foldl (fun acc s => acc.update s.today s.playlist s.published_playlist_ids) p

theorem update_asterisk_false {p : CumulativePlaylist}
    (hp : ∀ t ∈ p.tracks, t.date_added_asterisk = false)
    (today : Date) (playlist : Playlist) (published : List String) :
    ∀ t ∈ (p.update today playlist published).tracks,
      t.date_added_asterisk = false := by
  intro t ht
  have hperm := update_tracks_perm p today playlist published
  rcases List.mem_filterMap.mp (hperm.mem_iff.mp ht) with ⟨id, _, hmt⟩
  cases hcur : lookupBy Track.get_id id playlist.tracks with
  | some n =>
      rw [hcur] at hmt
      cases hprev : lookupBy CumulativeTrack.get_id id p.tracks with
      | none =>
          rw [hprev, mergeTrack, Option.some.injEq] at hmt
          rw [← hmt]
          rfl
      | some o =>
          rw [hprev, mergeTrack_both] at hmt
          split at hmt <;> rw [Option.some.injEq] at hmt <;> rw [← hmt]
          · exact hp o (lookupBy_mem hprev).1
          · rfl
  | none =>
      rw [hcur] at hmt
      cases hprev : lookupBy CumulativeTrack.get_id id p.tracks with
      | none =>
          rw [hprev] at hmt
          simp [mergeTrack] at hmt
      | some o =>
          rw [hprev] at hmt
          rw [mergeTrack_old_only hmt]
          exact hp o (lookupBy_mem hprev).1

/-- C8: along any sequence of `update` calls starting from a freshly created
cumulative playlist, no track ever carries the `date_added_asterisk` flag
(newly observed tracks always receive `asterisk = false`, and the merge never
sets it); hence, vacuously, every asterisked track has
`date_added = date_first_scraped`. The flag can only enter through
deserialized pre-existing archive data, never through the merge itself. -/
theorem reachable_asterisk_invariant (d0 : Date) (steps : List UpdateStep) :
    ∀ t ∈ (applyUpdates (freshCumulative d0) steps).tracks,
      t.date_added_asterisk = false ∧
        (t.date_added_asterisk = true →
          t.date_added = (applyUpdates (freshCumulative d0) steps).date_first_scraped) := by
  have main : ∀ (steps : List UpdateStep) (p : CumulativePlaylist),
      (∀ t ∈ p.tracks, t.date_added_asterisk = false) →
      ∀ t ∈ (applyUpdates p steps).tracks, t.date_added_asterisk = false := by
    intro steps
    induction steps with
    | nil => intro p hp; exact hp
    | cons s rest ih =>
        intro p hp
        exact ih _ (update_asterisk_false hp s.today s.playlist s.published_playlist_ids)
  intro t ht
  have hfalse := main steps (freshCumulative d0) (by intro t ht; cases ht) t ht
  refine ⟨hfalse, fun htrue => ?_⟩
  rw [hfalse] at htrue
  cases htrue

/-! Concrete inputs instantiating the merge claims (the example scenario of
the specification: previous track added 2000-01-02 without asterisk, removed
2000-01-03; today 2000-01-05; the track re-included with added_at
2000-01-04). -/

def exOldTrack : CumulativeTrack :=
  { url := "t/T1", name := "Song", album := ⟨"al", "Al"⟩,
    artists := [⟨"ar", "Ar"⟩], duration_ms := 100,
    date_added := ⟨2000, 1, 2⟩, date_added_asterisk := false,
    date_removed := some ⟨2000, 1, 3⟩ }

def exPrevCumulative : CumulativePlaylist :=
  { url := "p/P1", name := "PL", description := "d", tracks := [exOldTrack],
    date_first_scraped := ⟨2000, 1, 1⟩, published_playlist_ids := [] }

def exNewTrack : Track :=
  { url := "t/T1", name := "Song", album := ⟨"al", "Al"⟩,
    artists := [⟨"ar", "Ar"⟩], duration_ms := 100,
    added_at := some ⟨⟨2000, 1, 4⟩, 0, 0, 0⟩ }

def exCurrentPlaylist : Playlist :=
  { url := "p/P1", original_name := "PL", unique_name := "PL",
    description := "d", tracks := [exNewTrack], snapshot_id := "s",
    num_followers := some 3, owner := ⟨"o", "O"⟩ }

/-- The track produced by the example merge. -/
def exMergedTrack : CumulativeTrack :=
  { url := "t/T1", name := "Song", album := ⟨"al", "Al"⟩,
    artists := [⟨"ar", "Ar"⟩], duration_ms := 100,
    date_added := ⟨2000, 1, 2⟩, date_added_asterisk := false,
    date_removed := none }

theorem update_track_present_in_both_witness :
    lookupBy CumulativeTrack.get_id "T1" exPrevCumulative.tracks = some exOldTrack ∧
    lookupBy Track.get_id "T1" exCurrentPlaylist.tracks = some exNewTrack ∧
    ∃ t ∈ (exPrevCumulative.update ⟨2000, 1, 5⟩ exCurrentPlaylist []).tracks,
      t.url = exNewTrack.url ∧ t.name = exNewTrack.name ∧
      t.album = exNewTrack.album ∧ t.artists = exNewTrack.artists ∧
      t.duration_ms = exNewTrack.duration_ms ∧ t.date_removed = none ∧
      (if exOldTrack.date_added.leb
          ((exNewTrack.added_at.map Timestamp.date).getD ⟨2000, 1, 5⟩) then
        t.date_added = exOldTrack.date_added ∧
          t.date_added_asterisk = exOldTrack.date_added_asterisk
      else
        t.date_added = (exNewTrack.added_at.map Timestamp.date).getD ⟨2000, 1, 5⟩ ∧
          t.date_added_asterisk = false) :=
  ⟨by decide, by decide,
    update_track_present_in_both exPrevCumulative ⟨2000, 1, 5⟩
      exCurrentPlaylist [] "T1" exOldTrack exNewTrack (by decide) (by decide)⟩

theorem update_date_removed_iff_witness :
    exMergedTrack ∈ (exPrevCumulative.update ⟨2000, 1, 5⟩ exCurrentPlaylist []).tracks ∧
    (exMergedTrack.date_removed = none ↔
      exMergedTrack.get_id ∈ exCurrentPlaylist.tracks.map Track.get_id) :=
  ⟨by decide,
    update_date_removed_iff exPrevCumulative ⟨2000, 1, 5⟩ exCurrentPlaylist []
      exMergedTrack (by decide)⟩

/-- A fresh track as produced from `exNewTrack` by a first merge. -/
def exFreshMerged : CumulativeTrack :=
  { url := "t/T1", name := "Song", album := ⟨"al", "Al"⟩,
    artists := [⟨"ar", "Ar"⟩], duration_ms := 100,
    date_added := ⟨2000, 1, 4⟩, date_added_asterisk := false,
    date_removed := none }

theorem reachable_asterisk_invariant_witness :
    exFreshMerged ∈
      (applyUpdates (freshCumulative ⟨2000, 1, 1⟩)
        [⟨⟨2000, 1, 5⟩, exCurrentPlaylist, []⟩]).tracks ∧
    exFreshMerged.date_added_asterisk = false :=
  ⟨by decide,
    (reachable_asterisk_invariant ⟨2000, 1, 1⟩
      [⟨⟨2000, 1, 5⟩, exCurrentPlaylist, []⟩] exFreshMerged (by decide)).1⟩

/-! The retryable request engine (spotify.py). JSON values model the parsed
bodies handed around by `_send_request`; retry-budget seconds (Python floats)
are modelled as exact rationals — every test the code performs on them is a
sign test, which IEEE-double subtraction of two doubles answers exactly. -/

/-- A parsed JSON value (the source only ever handles null, booleans,
integers, strings, arrays and objects here). -/
inductive JVal where
  | null : JVal
  | b : Bool → JVal
  | num : Int → JVal
  | str : String → JVal
  | arr : List JVal → JVal
  | obj : List (String × JVal) → JVal

/-- Python truthiness of a parsed JSON value (`if not data:`). -/
def JVal.isFalsy : JVal → Bool
  | .null => true
  | .b v => !v
  | .num n => n = 0
  | .str s => s = ""
  | .arr xs => xs.isEmpty
  | .obj fs => fs.isEmpty

/-- spotify.RetryBudget: a depletable counter of allowed retry-seconds. -/
structure RetryBudget where
  initial_seconds : Rat
  remaining_seconds : Rat
deriving DecidableEq

/-- RetryBudget.__init__(seconds) -/
def RetryBudget.new (seconds : Rat) : RetryBudget := ⟨seconds, seconds⟩

/-- RetryBudget.subtract (spotify.py lines 231-234): decrements the remaining
seconds and raises `RetryBudgetExceededError` when the result is ≤ 0. The
returned pair is the post-call state and whether the call raised. -/
def RetryBudget.subtract (b : RetryBudget) (seconds : Rat) : RetryBudget × Bool :=
  let b2 := { b with remaining_seconds := b.remaining_seconds - seconds }
  (b2, decide (b2.remaining_seconds ≤ 0))

/-- spotify.ResponseType -/
inductive ResponseType where
  | JSON : ResponseType
  | EMPTY : ResponseType
deriving DecidableEq

/-- The inputs of one HTTP attempt that `_send_request` inspects: the status
code, the parsed `Retry-After` header (read only on 429), and the parsed JSON
body (`none` models a body that fails JSON parsing, i.e.
`aiohttp.ContentTypeError`). -/
structure HttpResponse where
  status : Nat
  retryAfter : Int
  json : Option JVal

/-- The possible outcomes of `Spotify._send_request` (spotify.py lines
384-424): the raised error, or the returned data. The human-readable
`error_info` string is not modelled. -/
inductive SendOutcome where
  | ok : JVal → SendOutcome
  | invalidAccessToken : SendOutcome
  | rateLimited : Int → SendOutcome
  | serverError : Nat → SendOutcome
  | contentTypeError : SendOutcome
  | unexpectedEmptyResponse : SendOutcome
  | resourceNotFound : SendOutcome
  | requestFailed : SendOutcome

/-- The `if status >= 400:` block of `_send_request` (spotify.py lines
410-418) followed by the success return: 400 and 404 raise
`ResourceNotFoundError`, any other 4xx raises `RequestFailedError` unless the
caller opted out, otherwise the parsed data is returned. -/
def clientErrorCheck (status : Nat) (raise_if_request_fails : Bool)
    (data : JVal) : SendOutcome :=
  if 400 ≤ status then
    if status = 400 ∨ status = 404 then .resourceNotFound
    else if raise_if_request_fails then .requestFailed
    else .ok data
  else .ok data

/-- Spotify._send_request (spotify.py lines 384-424). -/
def sendRequest (resp : HttpResponse) (expected : ResponseType)
    (raise_if_request_fails : Bool) : SendOutcome :=
  if resp.status = 401 then .invalidAccessToken
  else if resp.status = 429 then .rateLimited resp.retryAfter
  else if 500 ≤ resp.status then .serverError resp.status
  else
    match expected with
    | .JSON =>
        match resp.json with
        | none => .contentTypeError
        | some data =>
            if data.isFalsy then .unexpectedEmptyResponse
            else clientErrorCheck resp.status raise_if_request_fails data
    | .EMPTY => clientErrorCheck resp.status raise_if_request_fails (.obj [])

/-- A coerced retryable error: the sleep to perform and whether the cached
access token must be refreshed (spotify.RetryableError). -/
structure RetryableErr where
  sleep_seconds : Rat
  refresh_access_token : Bool
deriving DecidableEq

/-- Outcome after `_send_request_and_coerce_errors`. -/
inductive CoercedOutcome where
  | success : JVal → CoercedOutcome
  | retryable : RetryableErr → CoercedOutcome
  | fatalResourceNotFound : CoercedOutcome
  | fatalRequestFailed : CoercedOutcome

/-- Spotify._send_request_and_coerce_errors (spotify.py lines 347-382):
catches the retryable errors and coerces them into `RetryableError`, with
sleep 1 s by default, `Retry-After + 1` s for rate limiting (the extra second
guards against header/clock skew), and a token refresh for 401. -/
def coerceErrors : SendOutcome → CoercedOutcome
  | .ok d => .success d
  | .invalidAccessToken => .retryable ⟨1, true⟩
  | .rateLimited retryAfter => .retryable ⟨(retryAfter : Rat) + 1, false⟩
  | .serverError _ => .retryable ⟨1, false⟩
  | .contentTypeError => .retryable ⟨1, false⟩
  | .unexpectedEmptyResponse => .retryable ⟨1, false⟩
  | .resourceNotFound => .fatalResourceNotFound
  | .requestFailed => .fatalRequestFailed

/-- What one iteration of `_make_retryable_request` does with a retryable
error: either both budgets are successfully debited and the client sleeps
before retrying (post-debit budget states carried along), or one of the
budget-exceeded errors propagates. -/
inductive RetryHandling where
  | sleepAndRetry : Rat → RetryBudget → Option RetryBudget → Bool → RetryHandling
  | overallBudgetExceeded : RetryBudget → Option RetryBudget → RetryHandling
  | requestBudgetExceeded : RetryBudget → Option RetryBudget → RetryHandling
deriving DecidableEq

/-- The `except RetryableError` block of `Spotify._make_retryable_request`
(spotify.py lines 324-345): subtract the sleep duration from the overall
budget (raising `OverallRetryBudgetExceededError` on exhaustion), then from
the per-request budget if one was supplied (raising
`RequestRetryBudgetExceededError`), and only then sleep. -/
def handleRetryableError (e : RetryableErr) (overall : RetryBudget)
    (request : Option RetryBudget) : RetryHandling :=
  let ov := overall.subtract e.sleep_seconds
  if ov.2 then .overallBudgetExceeded ov.1 request
  else
    match request with
    | none => .sleepAndRetry e.sleep_seconds ov.1 none e.refresh_access_token
    | some rb =>
        let rb2 := rb.subtract e.sleep_seconds
        if rb2.2 then .requestBudgetExceeded ov.1 (some rb2.1)
        else .sleepAndRetry e.sleep_seconds ov.1 (some rb2.1) e.refresh_access_token

/-- C7: `RetryBudget.subtract s` on a budget with remaining `r` raises the
budget-exceeded error exactly when `r - s ≤ 0`; in particular it always
raises when `r ≤ s`, and once the remaining amount is ≤ 0 no further
subtraction of a nonnegative amount returns silently. -/
theorem retryBudget_subtract_spec (b : RetryBudget) (s : Rat) :
    ((b.subtract s).2 = true ↔ b.remaining_seconds - s ≤ 0) ∧
    (b.remaining_seconds ≤ s → (b.subtract s).2 = true) ∧
    (b.remaining_seconds ≤ 0 → 0 ≤ s → (b.subtract s).2 = true) := by
  refine ⟨by simp [RetryBudget.subtract], ?_, ?_⟩
  · intro h
    simp [RetryBudget.subtract]
    linarith
  · intro h hs
    simp [RetryBudget.subtract]
    linarith

theorem retryBudget_subtract_spec_witness :
    ((RetryBudget.new 5).subtract 5).2 = true ∧
    (RetryBudget.new 5).remaining_seconds ≤ 5 :=
  ⟨(retryBudget_subtract_spec (RetryBudget.new 5) 5).2.1 (by decide), by decide⟩

/-- C2 counterexample: a 400 response on an ordinary endpoint (JSON body
expected and parsed, `raise_if_request_fails = True`, the default used by
every read endpoint) is classified `ResourceNotFoundError`, not
`RequestFailedError` — the code treats 400 like 404 unconditionally, for
every endpoint. -/
theorem status400_is_resource_not_found :
    sendRequest ⟨400, 0, some (.obj [("error", .obj [("message", .str "foo")])])⟩
        .JSON true = .resourceNotFound ∧
    sendRequest ⟨400, 0, some (.obj [("error", .obj [("message", .str "foo")])])⟩
        .JSON true ≠ .requestFailed := by
  refine ⟨rfl, fun h => ?_⟩
  rw [show sendRequest ⟨400, 0, some (.obj [("error", .obj [("message", .str "foo")])])⟩
      .JSON true = .resourceNotFound from rfl] at h
  exact SendOutcome.noConfusion h

/-- C2 (amended): for every response reaching the client-error handling with
a parsed, non-empty JSON body: a 400 or 404 status raises the fatal
`ResourceNotFoundError` on every endpoint (never retried — it is not coerced
into a retryable error), and every other 4xx status apart from the
separately-handled 401 and 429 raises the fatal `RequestFailedError` when
the caller has not opted out of raising. -/
theorem sendRequest_json_body (resp : HttpResponse) (raiseFlag : Bool)
    (data : JVal) (hjson : resp.json = some data) (hne : data.isFalsy = false)
    (h401 : resp.status ≠ 401) (h429 : resp.status ≠ 429)
    (h500 : ¬ 500 ≤ resp.status) :
    sendRequest resp .JSON raiseFlag
      = clientErrorCheck resp.status raiseFlag data := by
  unfold sendRequest
  rw [if_neg h401, if_neg h429, if_neg h500, hjson]
  show (if data.isFalsy then SendOutcome.unexpectedEmptyResponse
    else clientErrorCheck resp.status raiseFlag data)
    = clientErrorCheck resp.status raiseFlag data
  rw [hne]
  simp

theorem client_error_classification (resp : HttpResponse) (raiseFlag : Bool)
    (data : JVal) (hjson : resp.json = some data) (hne : data.isFalsy = false)
    (h4 : 400 ≤ resp.status) (h5 : resp.status < 500) :
    ((resp.status = 400 ∨ resp.status = 404) →
      sendRequest resp .JSON raiseFlag = .resourceNotFound ∧
      coerceErrors (sendRequest resp .JSON raiseFlag) = .fatalResourceNotFound) ∧
    (resp.status ≠ 400 → resp.status ≠ 404 → resp.status ≠ 401 →
      resp.status ≠ 429 →
      sendRequest resp .JSON true = .requestFailed ∧
      coerceErrors (sendRequest resp .JSON true) = .fatalRequestFailed) := by
  constructor
  · intro hmem
    have h401 : resp.status ≠ 401 := by rcases hmem with h | h <;> omega
    have h429 : resp.status ≠ 429 := by rcases hmem with h | h <;> omega
    have h500 : ¬ 500 ≤ resp.status := by omega
    have hval : sendRequest resp .JSON raiseFlag = .resourceNotFound := by
      rw [sendRequest_json_body resp raiseFlag data hjson hne h401 h429 h500]
      unfold clientErrorCheck
      rw [if_pos h4, if_pos hmem]
    exact ⟨hval, by rw [hval]; rfl⟩
  · intro hn400 hn404 hn401 hn429
    have h500 : ¬ 500 ≤ resp.status := by omega
    have hnor : ¬ (resp.status = 400 ∨ resp.status = 404) := by
      rintro (h | h)
      exacts [hn400 h, hn404 h]
    have hval : sendRequest resp .JSON true = .requestFailed := by
      rw [sendRequest_json_body resp true data hjson hne hn401 hn429 h500]
      unfold clientErrorCheck
      rw [if_pos h4, if_neg hnor, if_pos rfl]
    exact ⟨hval, by rw [hval]; rfl⟩

theorem client_error_classification_witness :
    (sendRequest ⟨404, 0, some (.obj [("error", .null)])⟩ .JSON true
        = .resourceNotFound ∧
      coerceErrors (sendRequest ⟨404, 0, some (.obj [("error", .null)])⟩ .JSON true)
        = .fatalResourceNotFound) ∧
    (sendRequest ⟨403, 0, some (.obj [("error", .null)])⟩ .JSON true
        = .requestFailed ∧
      coerceErrors (sendRequest ⟨403, 0, some (.obj [("error", .null)])⟩ .JSON true)
        = .fatalRequestFailed) :=
  ⟨(client_error_classification ⟨404, 0, some (.obj [("error", .null)])⟩ true
      (.obj [("error", .null)]) rfl (by decide) (by decide) (by decide)).1
      (Or.inr rfl),
    (client_error_classification ⟨403, 0, some (.obj [("error", .null)])⟩ true
      (.obj [("error", .null)]) rfl (by decide) (by decide) (by decide)).2
      (by decide) (by decide) (by decide) (by decide)⟩

/-- C4: an HTTP 429 with an integer `Retry-After` of `h` seconds is
classified as retryable with a sleep of `h + 1` seconds; when neither budget
is thereby exhausted, the iteration debits `h + 1` from the overall budget
and from the supplied per-request budget and only then sleeps `h + 1`
seconds (the retry carries the post-debit budget states). -/
theorem rate_limited_sleep_and_debit (resp : HttpResponse) (h : Int)
    (overall requestB : RetryBudget) (expected : ResponseType)
    (raiseFlag : Bool)
    (hstatus : resp.status = 429) (hra : resp.retryAfter = h)
    (hov : ¬ overall.remaining_seconds - ((h : Rat) + 1) ≤ 0)
    (hrb : ¬ requestB.remaining_seconds - ((h : Rat) + 1) ≤ 0) :
    coerceErrors (sendRequest resp expected raiseFlag)
        = .retryable ⟨(h : Rat) + 1, false⟩ ∧
    handleRetryableError ⟨(h : Rat) + 1, false⟩ overall (some requestB)
        = .sleepAndRetry ((h : Rat) + 1)
            { overall with
              remaining_seconds := overall.remaining_seconds - ((h : Rat) + 1) }
            (some { requestB with
                    remaining_seconds := requestB.remaining_seconds - ((h : Rat) + 1) })
            false := by
  constructor
  · have h401 : resp.status ≠ 401 := by omega
    unfold sendRequest
    rw [if_neg h401, if_pos hstatus, hra]
    rfl
  · unfold handleRetryableError
    simp only [RetryBudget.subtract, decide_eq_true_eq]
    rw [if_neg hov, if_neg hrb]

/-- C4 witness: `Retry-After: 2` makes the client sleep exactly 3 seconds and
debits both budgets by 3 (overall 300 → 297, request 5 → 2, the production
budget sizes). -/
theorem rate_limited_sleep_and_debit_witness :
    coerceErrors (sendRequest ⟨429, 2, none⟩ .JSON true)
        = .retryable ⟨(2 : Int) + 1, false⟩ ∧
    handleRetryableError ⟨(2 : Int) + 1, false⟩ (RetryBudget.new 300)
        (some (RetryBudget.new 5))
        = .sleepAndRetry ((2 : Int) + 1)
            { RetryBudget.new 300 with
              remaining_seconds := (RetryBudget.new 300).remaining_seconds - ((2 : Int) + 1) }
            (some { RetryBudget.new 5 with
                    remaining_seconds := (RetryBudget.new 5).remaining_seconds - ((2 : Int) + 1) })
            false :=
  rate_limited_sleep_and_debit ⟨429, 2, none⟩ 2
    (RetryBudget.new 300) (RetryBudget.new 5) .JSON true rfl rfl
    (by norm_num [RetryBudget.new]) (by norm_num [RetryBudget.new])

/-! Paginated fetching (spotify.py `Spotify._get_tracks`, lines 630-712, and
the accumulation `tracks += batch` in `get_playlist`, lines 613-615).
The per-item parsing of a page is abstracted: a `Page` carries the items the
code extracts from one response together with the response's `next` value
(`none` models an absent key, `some ""` an empty cursor — both falsy, ending
the `while href:` loop). The fetch itself is a parameter, as the request
client is to the pagination loop. Fuel bounds the recursion; the theorems
quantify over all sufficient fuel, so no result depends on its choice. -/

/-- One page of a paginated response: the extracted items and the raw `next`
cursor from the response body. -/
structure Page (α : Type) where
  items : List α
  next : Option String
deriving DecidableEq

/-- The `while href:` pagination loop: request the current href, accumulate
the page's items, follow `data.get("next")`, and stop as soon as it is
absent or empty. Returns the accumulated items in order together with the
list of hrefs actually requested. -/
def fetchPages {α : Type} (fetch : String → Page α) : Nat → String → List α × List String
  | 0, _ => ([], [])
  | fuel + 1, href =>
      let p := fetch href
      match p.next with
      | none => (p.items, [href])
      | some nxt =>
          if nxt = "" then (p.items, [href])
          else
            let r := fetchPages fetch fuel nxt
            (p.items ++ r.1, href :: r.2)

/-- C9: the paginated fetch accumulates each page's extracted items in order,
following the `next` cursor, and stops as soon as the cursor is empty or
absent; in particular, for pages `[a, b]` with next `u2` followed by `[c]`
with an empty next, the result is `[a, b, c]` and only the two urls are ever
requested — with any amount of remaining fuel, no further page is fetched. -/
theorem paginated_fetch_spec {α : Type} (fetch : String → Page α) :
    (∀ (fuel : Nat) (u : String) (its : List α) (nxt : String),
      fetch u = ⟨its, some nxt⟩ → nxt ≠ "" →
      fetchPages fetch (fuel + 1) u =
        (its ++ (fetchPages fetch fuel nxt).1, u :: (fetchPages fetch fuel nxt).2)) ∧
    (∀ (fuel : Nat) (u : String) (its : List α),
      fetch u = ⟨its, none⟩ → fetchPages fetch (fuel + 1) u = (its, [u])) ∧
    (∀ (fuel : Nat) (u : String) (its : List α),
      fetch u = ⟨its, some ""⟩ → fetchPages fetch (fuel + 1) u = (its, [u])) ∧
    (∀ (fuel : Nat) (a b c : α) (u1 u2 : String),
      fetch u1 = ⟨[a, b], some u2⟩ → fetch u2 = ⟨[c], some ""⟩ → u2 ≠ "" →
      fetchPages fetch (fuel + 2) u1 = ([a, b, c], [u1, u2])) := by
  have hstep : ∀ (fuel : Nat) (u : String) (its : List α) (nxt : String),
      fetch u = ⟨its, some nxt⟩ → nxt ≠ "" →
      fetchPages fetch (fuel + 1) u =
        (its ++ (fetchPages fetch fuel nxt).1, u :: (fetchPages fetch fuel nxt).2) := by
    intro fuel u its nxt hu hne
    rw [fetchPages, hu]
    simp only [if_neg hne]
  have hdone : ∀ (fuel : Nat) (u : String) (its : List α),
      fetch u = ⟨its, none⟩ → fetchPages fetch (fuel + 1) u = (its, [u]) := by
    intro fuel u its hu
    rw [fetchPages, hu]
  have hempty : ∀ (fuel : Nat) (u : String) (its : List α),
      fetch u = ⟨its, some ""⟩ → fetchPages fetch (fuel + 1) u = (its, [u]) := by
    intro fuel u its hu
    rw [fetchPages, hu]
    simp
  refine ⟨hstep, hdone, hempty, ?_⟩
  intro fuel a b c u1 u2 h1 h2 hne
  rw [hstep (fuel + 1) u1 [a, b] u2 h1 hne, hempty fuel u2 [c] h2]
  rfl

/-- Concrete two-page traversal instantiating C9. -/
def exFetch : String → Page Nat := fun u =>
  if u = "p1" then ⟨[1, 2], some "p2"⟩
  else if u = "p2" then ⟨[3], some ""⟩
  else ⟨[], none⟩

theorem paginated_fetch_spec_witness :
    exFetch "p1" = ⟨[1, 2], some "p2"⟩ ∧
    exFetch "p2" = ⟨[3], some ""⟩ ∧
    fetchPages exFetch 2 "p1" = ([1, 2, 3], ["p1", "p2"]) :=
  ⟨by decide, by decide,
    (paginated_fetch_spec exFetch).2.2.2 0 1 2 3 "p1" "p2"
      (by decide) (by decide) (by decide)⟩

/-! Machinery for the idempotence of the cumulative merge (C3). -/

theorem Date.leb_refl (d : Date) : d.leb d = true := by
  simp [Date.leb]

/-- A merged track's id is the id it was merged under. -/
theorem mergeTrack_lookup_get_id {today : Date} {prev : List CumulativeTrack}
    {cur : List Track} {id : String} {t : CumulativeTrack}
    (h : mergeTrack today (lookupBy CumulativeTrack.get_id id prev)
      (lookupBy Track.get_id id cur) = some t) :
    t.get_id = id := by
  cases hp : lookupBy CumulativeTrack.get_id id prev with
  | none =>
      cases hc : lookupBy Track.get_id id cur with
      | none => rw [hp, hc] at h; simp [mergeTrack] at h
      | some n =>
          rw [hp, hc, mergeTrack, Option.some.injEq] at h
          rw [← h]
          exact (lookupBy_mem hc).2
  | some o =>
      cases hc : lookupBy Track.get_id id cur with
      | none =>
          rw [hp, hc, mergeTrack, Option.some.injEq] at h
          rw [← h]
          exact (lookupBy_mem hp).2
      | some n =>
          rw [hp, hc, mergeTrack_both] at h
          split at h <;>
            · rw [Option.some.injEq] at h
              rw [← h]
              exact (lookupBy_mem hc).2

/-- Ids of a filterMap under an id-preserving function form a sublist of the
id list. -/
theorem map_get_id_filterMap_sublist {f : String → Option CumulativeTrack}
    (hf : ∀ id t, f id = some t → t.get_id = id) :
    ∀ ids : List String,
      ((ids.filterMap f).map CumulativeTrack.get_id).Sublist ids := by
  intro ids
  induction ids with
  | nil => simp
  | cons x xs ih =>
      rw [List.filterMap_cons]
      cases hx : f x with
      | none => exact ih.cons x
      | some t =>
          rw [List.map_cons, hf x t hx]
          exact ih.cons₂ x

/-- Looking up an id in the filterMap of an id-preserving function over a
duplicate-free id list returns exactly the function's value there. -/
theorem lookup_filterMap_eq {f : String → Option CumulativeTrack}
    (hf : ∀ id t, f id = some t → t.get_id = id) {ids : List String}
    (hnd : ids.Nodup) {id : String} (hid : id ∈ ids) :
    lookupBy CumulativeTrack.get_id id (ids.filterMap f) = f id := by
  have hkeys : ((ids.filterMap f).map CumulativeTrack.get_id).Nodup :=
    hnd.sublist (map_get_id_filterMap_sublist hf ids)
  cases hfx : f id with
  | some t =>
      rw [lookupBy_eq_some_iff hkeys]
      exact ⟨List.mem_filterMap.mpr ⟨id, hid, hfx⟩, hf id t hfx⟩
  | none =>
      rw [lookupBy_eq_none_iff]
      intro t ht hkt
      rcases List.mem_filterMap.mp ht with ⟨id2, _, hfid2⟩
      have heq : id2 = id := by rw [← hkt]; exact (hf id2 t hfid2).symm
      rw [heq, hfx] at hfid2
      cases hfid2

theorem lookup_filterMap_not_mem {f : String → Option CumulativeTrack}
    (hf : ∀ id t, f id = some t → t.get_id = id) {ids : List String}
    {id : String} (hid : id ∉ ids) :
    lookupBy CumulativeTrack.get_id id (ids.filterMap f) = none := by
  rw [lookupBy_eq_none_iff]
  intro t ht hkt
  rcases List.mem_filterMap.mp ht with ⟨id2, hid2, hfid2⟩
  have hne : id2 = id := by rw [← hkt]; exact (hf id2 t hfid2).symm
  rw [hne] at hid2
  exact hid hid2

/-- Lookups with duplicate-free keys are invariant under permutation. -/
theorem lookup_perm_invariant {l l2 : List CumulativeTrack}
    (hnd : (l.map CumulativeTrack.get_id).Nodup) (hp : List.Perm l l2)
    (id : String) :
    lookupBy CumulativeTrack.get_id id l = lookupBy CumulativeTrack.get_id id l2 := by
  have hnd2 : (l2.map CumulativeTrack.get_id).Nodup :=
    ((hp.map CumulativeTrack.get_id).nodup_iff).mp hnd
  cases h : lookupBy CumulativeTrack.get_id id l2 with
  | some t =>
      rw [lookupBy_eq_some_iff hnd]
      have hm := (lookupBy_eq_some_iff hnd2).mp h
      exact ⟨hp.mem_iff.mpr hm.1, hm.2⟩
  | none =>
      rw [lookupBy_eq_none_iff]
      intro t ht
      exact lookupBy_eq_none_iff.mp h t (hp.mem_iff.mp ht)

/-- Rebuilding a duplicate-free-key list by looking each of its ids back up
returns the list itself. -/
theorem filterMap_lookup_self {l : List CumulativeTrack}
    (h : (l.map CumulativeTrack.get_id).Nodup) :
    (l.map CumulativeTrack.get_id).filterMap
      (fun id => lookupBy CumulativeTrack.get_id id l) = l := by
  induction l with
  | nil => rfl
  | cons t rest ih =>
      rw [List.map_cons, List.nodup_cons] at h
      rw [List.map_cons, List.filterMap_cons]
      have hhead : lookupBy CumulativeTrack.get_id t.get_id (t :: rest) = some t := by
        simp only [lookupBy, List.foldl_cons, if_pos rfl]
        apply foldl_lookup_no_match
        intro u hu hku
        exact h.1 (by rw [← hku]; exact List.mem_map_of_mem _ hu)
      rw [hhead]
      have htail : (rest.map CumulativeTrack.get_id).filterMap
          (fun id => lookupBy CumulativeTrack.get_id id (t :: rest))
          = (rest.map CumulativeTrack.get_id).filterMap
            (fun id => lookupBy CumulativeTrack.get_id id rest) := by
        apply List.filterMap_congr
        intro id hid
        have hne : t.get_id ≠ id := fun he => h.1 (he ▸ hid)
        simp only [lookupBy, List.foldl_cons, if_neg hne]
      rw [htail, ih h.2]

/-- Equal sort keys force equal track ids (the id is the key's last
component). -/
theorem get_id_eq_of_sortKey_eq {a b : CumulativeTrack}
    (h : sortKey a = sortKey b) : a.get_id = b.get_id :=
  congrArg (fun p => (ofLex ((ofLex ((ofLex p).2)).2)).2) h

theorem sortKey_nodup_of_get_id_nodup {l : List CumulativeTrack}
    (h : (l.map CumulativeTrack.get_id).Nodup) : (l.map sortKey).Nodup := by
  have h1 : l.Pairwise (fun a b => a.get_id ≠ b.get_id) := List.pairwise_map.mp h
  have h2 : l.Pairwise (fun a b => sortKey a ≠ sortKey b) :=
    h1.imp (fun hne hk => hne (get_id_eq_of_sortKey_eq hk))
  exact List.pairwise_map.mpr h2

/-- A sorted list with pairwise-distinct sort keys is strictly sorted. -/
theorem strict_sorted_of_sorted_keys_nodup {l : List CumulativeTrack}
    (hs : l.Sorted trackLE) (hnd : (l.map sortKey).Nodup) :
    l.Sorted trackLT := by
  have h1 : l.Pairwise (fun a b => sortKey a ≠ sortKey b) := List.pairwise_map.mp hnd
  exact (hs.and h1).imp (fun h => lt_of_le_of_ne h.1 h.2)

theorem mergeTrack_some_right (today : Date) (o? : Option CumulativeTrack)
    (n : Track) : ∃ t, mergeTrack today o? (some n) = some t := by
  cases o? with
  | none => exact ⟨freshTrack today n, rfl⟩
  | some o =>
      rw [mergeTrack_both]
      split
      · exact ⟨_, rfl⟩
      · exact ⟨_, rfl⟩

/-- Core of the idempotence argument, at the level of the track lists: the
second merge of an already-merged list with the same current playlist and
date reproduces that list. -/
theorem merge_idem_core (today : Date) (prevTracks : List CumulativeTrack)
    (curTracks : List Track) (mf1 : String → Option CumulativeTrack)
    (hmf1 : ∀ id, mf1 id = mergeTrack today
      (lookupBy CumulativeTrack.get_id id prevTracks)
      (lookupBy Track.get_id id curTracks))
    (s1 : List CumulativeTrack)
    (hs1 : s1 = sortCumulativeTracks
      ((unionKeys (curTracks.map Track.get_id)
        (prevTracks.map CumulativeTrack.get_id)).filterMap mf1)) :
    sortCumulativeTracks
      ((unionKeys (curTracks.map Track.get_id)
        (s1.map CumulativeTrack.get_id)).filterMap
        (fun id => mergeTrack today (lookupBy CumulativeTrack.get_id id s1)
          (lookupBy Track.get_id id curTracks))) = s1 := by
  have hf1 : ∀ id t, mf1 id = some t → t.get_id = id := by
    intro id t h
    rw [hmf1 id] at h
    exact mergeTrack_lookup_get_id h
  have hids1nd : (unionKeys (curTracks.map Track.get_id)
      (prevTracks.map CumulativeTrack.get_id)).Nodup := List.nodup_dedup _
  have hL1keys : (((unionKeys (curTracks.map Track.get_id)
      (prevTracks.map CumulativeTrack.get_id)).filterMap mf1).map
        CumulativeTrack.get_id).Nodup :=
    hids1nd.sublist (map_get_id_filterMap_sublist hf1 _)
  have hpermS1 : List.Perm s1 ((unionKeys (curTracks.map Track.get_id)
      (prevTracks.map CumulativeTrack.get_id)).filterMap mf1) := by
    rw [hs1]
    exact List.perm_insertionSort trackLE _
  have hs1keys : (s1.map CumulativeTrack.get_id).Nodup :=
    ((hpermS1.map CumulativeTrack.get_id).nodup_iff).mpr hL1keys
  have hs1sorted : s1.Sorted trackLE := by
    rw [hs1]
    exact List.sorted_insertionSort trackLE _
  have hlook : ∀ id, lookupBy CumulativeTrack.get_id id s1
      = lookupBy CumulativeTrack.get_id id ((unionKeys (curTracks.map Track.get_id)
        (prevTracks.map CumulativeTrack.get_id)).filterMap mf1) :=
    fun id => lookup_perm_invariant hs1keys hpermS1 id
  have hlook_mem : ∀ id ∈ unionKeys (curTracks.map Track.get_id)
      (prevTracks.map CumulativeTrack.get_id),
      lookupBy CumulativeTrack.get_id id s1 = mf1 id := by
    intro id hid
    rw [hlook id]
    exact lookup_filterMap_eq hf1 hids1nd hid
  have hcur_sub : ∀ id ∈ curTracks.map Track.get_id,
      id ∈ s1.map CumulativeTrack.get_id := by
    intro id hid
    rcases lookupBy_exists_of_mem_ids hid with ⟨n, hn⟩
    have hid1 : id ∈ unionKeys (curTracks.map Track.get_id)
        (prevTracks.map CumulativeTrack.get_id) := by
      unfold unionKeys
      rw [List.mem_dedup]
      exact List.mem_append_left _ hid
    have hsome : ∃ t, mf1 id = some t := by
      rw [hmf1 id, hn]
      exact mergeTrack_some_right today _ n
    rcases hsome with ⟨t, ht⟩
    have hmem : t ∈ (unionKeys (curTracks.map Track.get_id)
        (prevTracks.map CumulativeTrack.get_id)).filterMap mf1 :=
      List.mem_filterMap.mpr ⟨id, hid1, ht⟩
    rw [← hf1 id t ht]
    exact List.mem_map_of_mem _ (hpermS1.mem_iff.mpr hmem)
  have hs1_sub : ∀ id ∈ s1.map CumulativeTrack.get_id,
      id ∈ unionKeys (curTracks.map Track.get_id)
        (prevTracks.map CumulativeTrack.get_id) := by
    intro id hid
    rcases List.mem_map.mp hid with ⟨t, ht, rfl⟩
    rcases List.mem_filterMap.mp (hpermS1.mem_iff.mp ht) with ⟨id2, hid2, hfid2⟩
    rw [← hf1 id2 t hfid2] at hid2
    exact hid2
  have hids2eq : ∀ id, (id ∈ unionKeys (curTracks.map Track.get_id)
      (s1.map CumulativeTrack.get_id)) ↔ id ∈ s1.map CumulativeTrack.get_id := by
    intro id
    unfold unionKeys
    rw [List.mem_dedup, List.mem_append]
    constructor
    · rintro (h | h)
      exacts [hcur_sub id h, h]
    · exact Or.inr
  have hmf2 : ∀ id ∈ unionKeys (curTracks.map Track.get_id)
      (s1.map CumulativeTrack.get_id),
      mergeTrack today (lookupBy CumulativeTrack.get_id id s1)
          (lookupBy Track.get_id id curTracks)
        = lookupBy CumulativeTrack.get_id id s1 := by
    intro id hid
    have hid_s1 : id ∈ s1.map CumulativeTrack.get_id := (hids2eq id).mp hid
    have hid1 : id ∈ unionKeys (curTracks.map Track.get_id)
        (prevTracks.map CumulativeTrack.get_id) := hs1_sub id hid_s1
    rcases lookupBy_exists_of_mem_ids hid_s1 with ⟨t1, ht1⟩
    have ht1v : mf1 id = some t1 := by
      rw [← hlook_mem id hid1]
      exact ht1
    rw [hmf1 id] at ht1v
    rw [ht1]
    cases hc : lookupBy Track.get_id id curTracks with
    | none =>
        rw [hc] at ht1v
        cases hp : lookupBy CumulativeTrack.get_id id prevTracks with
        | none => rw [hp] at ht1v; simp [mergeTrack] at ht1v
        | some o =>
            rw [hp, mergeTrack, Option.some.injEq] at ht1v
            rw [← ht1v]
            rfl
    | some n =>
        rw [hc] at ht1v
        rw [mergeTrack_both]
        cases hp : lookupBy CumulativeTrack.get_id id prevTracks with
        | none =>
            rw [hp, mergeTrack, Option.some.injEq] at ht1v
            rw [← ht1v, if_pos (Date.leb_refl _)]
        | some o =>
            rw [hp, mergeTrack_both] at ht1v
            by_cases hle : o.date_added.leb (freshTrack today n).date_added = true
            · rw [if_pos hle, Option.some.injEq] at ht1v
              rw [← ht1v, if_pos hle]
            · rw [if_neg hle, Option.some.injEq] at ht1v
              rw [← ht1v, if_pos (Date.leb_refl _)]
  have hfilterL2 : (unionKeys (curTracks.map Track.get_id)
      (s1.map CumulativeTrack.get_id)).filterMap
        (fun id => mergeTrack today (lookupBy CumulativeTrack.get_id id s1)
          (lookupBy Track.get_id id curTracks))
      = (unionKeys (curTracks.map Track.get_id)
          (s1.map CumulativeTrack.get_id)).filterMap
        (fun id => lookupBy CumulativeTrack.get_id id s1) :=
    List.filterMap_congr hmf2
  have hpermids : List.Perm (unionKeys (curTracks.map Track.get_id)
      (s1.map CumulativeTrack.get_id)) (s1.map CumulativeTrack.get_id) := by
    apply List.perm_of_nodup_nodup_toFinset_eq (List.nodup_dedup _) hs1keys
    exact List.toFinset.ext hids2eq
  have hL2perm : List.Perm ((unionKeys (curTracks.map Track.get_id)
      (s1.map CumulativeTrack.get_id)).filterMap
        (fun id => mergeTrack today (lookupBy CumulativeTrack.get_id id s1)
          (lookupBy Track.get_id id curTracks))) s1 := by
    rw [hfilterL2]
    have := hpermids.filterMap (fun id => lookupBy CumulativeTrack.get_id id s1)
    rw [filterMap_lookup_self hs1keys] at this
    exact this
  have hfinperm : List.Perm (sortCumulativeTracks
      ((unionKeys (curTracks.map Track.get_id)
        (s1.map CumulativeTrack.get_id)).filterMap
        (fun id => mergeTrack today (lookupBy CumulativeTrack.get_id id s1)
          (lookupBy Track.get_id id curTracks)))) s1 :=
    (List.perm_insertionSort trackLE _).trans hL2perm
  have hkeys2 : ((sortCumulativeTracks
      ((unionKeys (curTracks.map Track.get_id)
        (s1.map CumulativeTrack.get_id)).filterMap
        (fun id => mergeTrack today (lookupBy CumulativeTrack.get_id id s1)
          (lookupBy Track.get_id id curTracks)))).map CumulativeTrack.get_id).Nodup :=
    ((hfinperm.map CumulativeTrack.get_id).nodup_iff).mpr hs1keys
  exact List.eq_of_perm_of_sorted hfinperm
    (strict_sorted_of_sorted_keys_nodup (List.sorted_insertionSort trackLE _)
      (sortKey_nodup_of_get_id_nodup hkeys2))
    (strict_sorted_of_sorted_keys_nodup hs1sorted
      (sortKey_nodup_of_get_id_nodup hs1keys))

/-- C3: the cumulative merge is idempotent — applying `update` again with
the same date, playlist and external-reference list reproduces the first
result exactly. -/
theorem update_idempotent (self : CumulativePlaylist) (today : Date)
    (playlist : Playlist) (published : List String) :
    (self.update today playlist published).update today playlist published
      = self.update today playlist published := by
  have htracks := merge_idem_core today self.tracks playlist.tracks
    (fun id => mergeTrack today (lookupBy CumulativeTrack.get_id id self.tracks)
      (lookupBy Track.get_id id playlist.tracks))
    (fun _ => rfl)
    (self.update today playlist published).tracks rfl
  exact congrArg (fun tr => CumulativePlaylist.mk playlist.url
    playlist.unique_name playlist.description tr self.date_first_scraped
    published) htracks

/-! Date serialization (playlist_types.py `serialize_date`, i.e. `str(date)`
= zero-padded ISO `YYYY-MM-DD`) and parsing
(`datetime.strptime(s, "%Y-%m-%d").date()`: exactly four digits for `%Y`,
one or two digits for `%m` and `%d`, and the `datetime.date` range/calendar
validation). -/

/-- Little-endian decimal digits of `n` as characters, with structural fuel
(so that the kernel can evaluate it; the fuel `n` itself always suffices). -/
def natCharsAux : Nat → Nat → List Char
  | 0, _ => []
  | _, 0 => []
  | fuel + 1, n => Nat.digitChar (n % 10) :: natCharsAux fuel (n / 10)

/-- Big-endian decimal digit characters of `n` (empty for 0). -/
def natChars (n : Nat) : List Char :=
  (natCharsAux n n).reverse

theorem natCharsAux_eq : ∀ {fuel n : Nat}, n ≤ fuel →
    natCharsAux fuel n = (Nat.digits 10 n).map Nat.digitChar := by
  intro fuel
  induction fuel with
  | zero =>
      intro n h
      have : n = 0 := by omega
      subst this
      simp [natCharsAux]
  | succ fuel ih =>
      intro n h
      cases n with
      | zero => simp [natCharsAux]
      | succ m =>
          rw [natCharsAux, Nat.digits_def' (by norm_num : (1 : Nat) < 10)
            (Nat.succ_pos m), List.map_cons]
          · congr 1
            have hd := Nat.div_lt_self (Nat.succ_pos m) (by norm_num : 1 < 10)
            exact ih (by omega)
          · omega

theorem natChars_eq (n : Nat) :
    natChars n = (Nat.digits 10 n).reverse.map Nat.digitChar := by
  rw [natChars, natCharsAux_eq (le_refl n), List.map_reverse]

/-- Zero-pad to width `w` (Python's `%04d`-style rendering inside
`date.isoformat`). -/
def padNat (w n : Nat) : List Char :=
  List.replicate (w - (natChars n).length) '0' ++ natChars n

/-- Numeric value of a digit-character list (what `int(...)`/strptime
computes for a matched digit group). -/
def charsToNat (cs : List Char) : Nat :=
  cs.foldl (fun a c => a * 10 + (c.toNat - 48)) 0

/-- Greedily take up to `max` leading decimal-digit characters. -/
def takeDigits : Nat → List Char → List Char × List Char
  | 0, cs => ([], cs)
  | _ + 1, [] => ([], [])
  | m + 1, c :: rest =>
      if c.isDigit then
        let r := takeDigits m rest
        (c :: r.1, r.2)
      else ([], c :: rest)

/-- Python's Gregorian leap-year rule (`calendar.isleap`). -/
def isLeapYear (y : Nat) : Bool :=
  y % 4 = 0 && (y % 100 ≠ 0 || y % 400 = 0)

/-- Days in a month, as validated by the `datetime.date` constructor. -/
def daysInMonth (y m : Nat) : Nat :=
  if m = 2 then (if isLeapYear y then 29 else 28)
  else if m = 4 ∨ m = 6 ∨ m = 9 ∨ m = 11 then 30
  else 31

/-- A representable `datetime.date`: the constructor's range checks. -/
def Date.Valid (d : Date) : Prop :=
  1 ≤ d.year ∧ d.year ≤ 9999 ∧ 1 ≤ d.month ∧ d.month ≤ 12 ∧
    1 ≤ d.day ∧ d.day ≤ daysInMonth d.year d.month

instance (d : Date) : Decidable d.Valid := by
  unfold Date.Valid
  infer_instance

/-- The `datetime.date(y, m, d)` constructor: `ValueError` on out-of-range
components. -/
def mkPyDate (y m d : Nat) : Option Date :=
  if 1 ≤ y ∧ y ≤ 9999 ∧ 1 ≤ m ∧ m ≤ 12 ∧ 1 ≤ d ∧ d ≤ daysInMonth y m then
    some ⟨y, m, d⟩
  else none

/-- `datetime.strptime(s, "%Y-%m-%d")` over the character list: `%Y` matches
exactly four digits, `%m` and `%d` one or two, separated by literal dashes,
with nothing left over, followed by date construction. -/
def parseDateChars (cs : List Char) : Option Date :=
  let p1 := takeDigits 4 cs
  if p1.1.length = 4 then
    match p1.2 with
    | '-' :: r2 =>
        let p2 := takeDigits 2 r2
        if p2.1 ≠ [] then
          match p2.2 with
          | '-' :: r4 =>
              let p3 := takeDigits 2 r4
              if p3.1 ≠ [] ∧ p3.2 = [] then
                mkPyDate (charsToNat p1.1) (charsToNat p2.1) (charsToNat p3.1)
              else none
          | _ => none
        else none
    | _ => none
  else none

/-- `str(date)`: zero-padded `YYYY-MM-DD`. -/
def renderDateChars (d : Date) : List Char :=
  padNat 4 d.year ++ '-' :: (padNat 2 d.month ++ '-' :: padNat 2 d.day)

/-- String-level wrappers. -/
def dateToStr (d : Date) : String := String.mk (renderDateChars d)

def parsePyDate (s : String) : Option Date := parseDateChars s.data

theorem digitChar_isDigit {d : Nat} (h : d < 10) :
    (Nat.digitChar d).isDigit = true := by
  interval_cases d <;> decide

theorem digitChar_toNat {d : Nat} (h : d < 10) :
    (Nat.digitChar d).toNat - 48 = d := by
  interval_cases d <;> decide

theorem natChars_all_digits (n : Nat) :
    ∀ c ∈ natChars n, c.isDigit = true := by
  intro c hc
  rw [natChars_eq n] at hc
  rcases List.mem_map.mp hc with ⟨d, hd, rfl⟩
  exact digitChar_isDigit (Nat.digits_lt_base (by norm_num) (List.mem_reverse.mp hd))

theorem padNat_all_digits (w n : Nat) :
    ∀ c ∈ padNat w n, c.isDigit = true := by
  intro c hc
  rcases List.mem_append.mp hc with h | h
  · rw [List.eq_of_mem_replicate h]
    decide
  · exact natChars_all_digits n c h

theorem natChars_length_le {n w : Nat} (hn : n < 10 ^ w) :
    (natChars n).length ≤ w := by
  rcases Nat.eq_zero_or_pos n with rfl | hpos
  · simp [natChars, natCharsAux]
  · have hlen : (natChars n).length = (Nat.digits 10 n).length := by
      rw [natChars_eq, List.length_map, List.length_reverse]
    rw [hlen]
    by_contra hgt
    push_neg at hgt
    have h1 : 10 ^ (w + 1) ≤ 10 ^ (Nat.digits 10 n).length :=
      Nat.pow_le_pow_right (by norm_num) hgt
    have h2 : 10 ^ (Nat.digits 10 n).length ≤ 10 * n :=
      Nat.base_pow_length_digits_le 10 n (by norm_num) (by omega)
    have h3 : 10 * n < 10 * 10 ^ w := by omega
    rw [pow_succ] at h1
    omega

theorem padNat_length {n w : Nat} (hn : n < 10 ^ w) :
    (padNat w n).length = w := by
  have h := natChars_length_le hn
  rw [padNat, List.length_append, List.length_replicate]
  omega

theorem takeDigits_exact {cs : List Char} {w : Nat} (hlen : cs.length = w)
    (hdig : ∀ c ∈ cs, c.isDigit = true) (rest : List Char) :
    takeDigits w (cs ++ rest) = (cs, rest) := by
  induction cs generalizing w with
  | nil =>
      rw [← hlen]
      rfl
  | cons c cs ih =>
      rw [← hlen]
      rw [List.length_cons, List.cons_append, takeDigits,
        if_pos (hdig c (List.mem_cons_self c cs))]
      rw [ih rfl (fun x hx => hdig x (List.mem_cons_of_mem c hx))]

theorem charsToNat_zeros_acc (k : Nat) (cs : List Char) :
    (List.replicate k '0' ++ cs).foldl (fun a c => a * 10 + (c.toNat - 48)) 0
      = cs.foldl (fun a c => a * 10 + (c.toNat - 48)) 0 := by
  induction k with
  | zero => rfl
  | succ k ih =>
      rw [List.replicate_succ, List.cons_append, List.foldl_cons]
      exact ih

theorem foldl_digitChars (ds : List Nat) (hd : ∀ d ∈ ds, d < 10) (a : Nat) :
    (ds.map Nat.digitChar).foldl (fun a c => a * 10 + (c.toNat - 48)) a
      = ds.foldl (fun a d => a * 10 + d) a := by
  induction ds generalizing a with
  | nil => rfl
  | cons d ds ih =>
      rw [List.map_cons, List.foldl_cons, List.foldl_cons,
        digitChar_toNat (hd d (List.mem_cons_self d ds))]
      exact ih (fun x hx => hd x (List.mem_cons_of_mem d hx)) _

theorem foldl_base10 (ds : List Nat) (a : Nat) :
    ds.foldl (fun a d => a * 10 + d) a
      = a * 10 ^ ds.length + Nat.ofDigits 10 ds.reverse := by
  induction ds generalizing a with
  | nil => simp [Nat.ofDigits]
  | cons d ds ih =>
      rw [List.foldl_cons, ih, List.reverse_cons, Nat.ofDigits_append,
        List.length_reverse, List.length_cons]
      have : Nat.ofDigits 10 [d] = d := by simp [Nat.ofDigits]
      rw [this]
      ring

theorem charsToNat_padNat {n w : Nat} (_hn : n < 10 ^ w) :
    charsToNat (padNat w n) = n := by
  rw [padNat, charsToNat, charsToNat_zeros_acc, natChars_eq,
    foldl_digitChars _ (fun d hd => Nat.digits_lt_base (by norm_num)
      (List.mem_reverse.mp hd)) 0,
    foldl_base10, List.reverse_reverse, Nat.ofDigits_digits]
  ring

/-- The date round trip: rendering a representable date and parsing it back
with the strptime model recovers the date. -/
theorem parsePyDate_dateToStr {d : Date} (h : d.Valid) :
    parsePyDate (dateToStr d) = some d := by
  obtain ⟨hy1, hy2, hm1, hm2, hd1, hd2⟩ := h
  have hdm : daysInMonth d.year d.month ≤ 31 := by
    unfold daysInMonth
    split
    · split <;> omega
    · split <;> omega
  have hylt : d.year < 10 ^ 4 := by norm_num; omega
  have hmlt : d.month < 10 ^ 2 := by norm_num; omega
  have hdlt : d.day < 10 ^ 2 := by norm_num; omega
  have hylen : (padNat 4 d.year).length = 4 := padNat_length hylt
  have hmlen : (padNat 2 d.month).length = 2 := padNat_length hmlt
  have hdlen : (padNat 2 d.day).length = 2 := padNat_length hdlt
  have hmne : padNat 2 d.month ≠ [] := by
    intro hcon
    rw [hcon] at hmlen
    exact absurd hmlen (by decide)
  have hdne : padNat 2 d.day ≠ [] := by
    intro hcon
    rw [hcon] at hdlen
    exact absurd hdlen (by decide)
  have htake1 : takeDigits 4 (padNat 4 d.year ++
      '-' :: (padNat 2 d.month ++ '-' :: padNat 2 d.day))
      = (padNat 4 d.year, '-' :: (padNat 2 d.month ++ '-' :: padNat 2 d.day)) :=
    takeDigits_exact hylen (padNat_all_digits 4 d.year) _
  have htake2 : takeDigits 2 (padNat 2 d.month ++ '-' :: padNat 2 d.day)
      = (padNat 2 d.month, '-' :: padNat 2 d.day) :=
    takeDigits_exact hmlen (padNat_all_digits 2 d.month) _
  have htake3 : takeDigits 2 (padNat 2 d.day) = (padNat 2 d.day, []) := by
    have h3 := takeDigits_exact hdlen (padNat_all_digits 2 d.day) []
    rwa [List.append_nil] at h3
  show parseDateChars (renderDateChars d) = some d
  rw [renderDateChars]
  unfold parseDateChars
  simp [htake1, htake2, htake3, hylen, hmne, hdne,
    charsToNat_padNat hylt, charsToNat_padNat hmlt, charsToNat_padNat hdlt,
    mkPyDate, hy1, hy2, hm1, hm2, hd1, hd2]

/-! Cumulative-playlist JSON serialization (playlist_types.py lines
285-396). `to_json` is `json.dumps(dataclasses.asdict(self), sort_keys=True,
default=serialize_date)` modelled at the level of the parsed JSON tree (the
`json` library's dump/load string layer is an external collaborator and is
the identity on trees; `sort_keys`/`indent` only affect the string form).
`from_json` is `json.loads` followed by the source's key accesses,
`isinstance` asserts and `strptime` calls, with failure as `none`. -/

/-- Python dict key access on a parsed JSON object (`KeyError` → `none`). -/
def jGet : List (String × JVal) → String → Option JVal
  | [], _ => none
  | (k, v) :: rest, key => if k = key then some v else jGet rest key

/-- `assert isinstance(x, str)` after a key access. -/
def asStr : Option JVal → Option String
  | some (.str s) => some s
  | _ => none

/-- `assert isinstance(x, bool)` after a key access. -/
def asBool : Option JVal → Option Bool
  | some (.b v) => some v
  | _ => none

/-- `assert isinstance(x, int)` after a key access. -/
def asInt : Option JVal → Option Int
  | some (.num n) => some n
  | _ => none

/-- `dataclasses.asdict` of an `Artist`. -/
def Artist.toJson (a : Artist) : JVal :=
  .obj [("url", .str a.url), ("name", .str a.name)]

/-- `dataclasses.asdict` of an `Album`. -/
def Album.toJson (a : Album) : JVal :=
  .obj [("url", .str a.url), ("name", .str a.name)]

/-- `dataclasses.asdict` of a `CumulativeTrack`, with dates rendered by
`serialize_date` (i.e. `str(date)`) and `None` as JSON null. -/
def CumulativeTrack.toJson (t : CumulativeTrack) : JVal :=
  .obj [("url", .str t.url),
        ("name", .str t.name),
        ("album", t.album.toJson),
        ("artists", .arr (t.artists.map Artist.toJson)),
        ("duration_ms", .num t.duration_ms),
        ("date_added", .str (dateToStr t.date_added)),
        ("date_added_asterisk", .b t.date_added_asterisk),
        ("date_removed",
          match t.date_removed with
          | none => .null
          | some r => .str (dateToStr r))]

/-- CumulativePlaylist.to_json (playlist_types.py lines 385-396), at the
JSON-tree level. -/
def CumulativePlaylist.to_json (p : CumulativePlaylist) : JVal :=
  .obj [("url", .str p.url),
        ("name", .str p.name),
        ("description", .str p.description),
        ("tracks", .arr (p.tracks.map CumulativeTrack.toJson)),
        ("date_first_scraped", .str (dateToStr p.date_first_scraped)),
        ("published_playlist_ids", .arr (p.published_playlist_ids.map JVal.str))]

/-- The `track["album"]` extraction of `from_json`. -/
def parseAlbum : Option JVal → Option Album
  | some (.obj fs) =>
      match asStr (jGet fs "url"), asStr (jGet fs "name") with
      | some u, some n => some ⟨u, n⟩
      | _, _ => none
  | _ => none

/-- The artist loop of `from_json`. -/
def parseArtists : List JVal → Option (List Artist)
  | [] => some []
  | j :: rest =>
      match j with
      | .obj fs =>
          match asStr (jGet fs "url"), asStr (jGet fs "name"),
              parseArtists rest with
          | some u, some n, some l => some (⟨u, n⟩ :: l)
          | _, _, _ => none
      | _ => none

/-- A mandatory `YYYY-MM-DD` string field. -/
def parseDateField (v : Option JVal) : Option Date :=
  match v with
  | some (.str s) => parsePyDate s
  | _ => none

/-- The nullable `date_removed` field. -/
def parseOptDateField (v : Option JVal) : Option (Option Date) :=
  match v with
  | some .null => some none
  | some (.str s) => (parsePyDate s).map some
  | _ => none

/-- One track of the `tracks` loop of `CumulativePlaylist.from_json`
(playlist_types.py lines 313-374). -/
def parseCumulativeTrack (j : JVal) : Option CumulativeTrack :=
  match j with
  | .obj fs =>
      match asStr (jGet fs "url"), asStr (jGet fs "name"),
          parseAlbum (jGet fs "album"),
          (match jGet fs "artists" with
            | some (.arr l) => parseArtists l
            | _ => none),
          asInt (jGet fs "duration_ms"),
          parseDateField (jGet fs "date_added"),
          asBool (jGet fs "date_added_asterisk"),
          parseOptDateField (jGet fs "date_removed") with
      | some url, some nm, some album, some artists, some dur, some da,
          some ast, some dr =>
          some ⟨url, nm, album, artists, dur, da, ast, dr⟩
      | _, _, _, _, _, _, _, _ => none
  | _ => none

def parseTracks : List JVal → Option (List CumulativeTrack)
  | [] => some []
  | j :: rest =>
      match parseCumulativeTrack j, parseTracks rest with
      | some t, some l => some (t :: l)
      | _, _ => none

def parseStrList : List JVal → Option (List String)
  | [] => some []
  | j :: rest =>
      match j with
      | .str s =>
          match parseStrList rest with
          | some l => some (s :: l)
          | none => none
      | _ => none

/-- CumulativePlaylist.from_json (playlist_types.py lines 285-383), at the
JSON-tree level. -/
def CumulativePlaylist.from_json (j : JVal) : Option CumulativePlaylist :=
  match j with
  | .obj fs =>
      match asStr (jGet fs "url"), asStr (jGet fs "name"),
          asStr (jGet fs "description"),
          parseDateField (jGet fs "date_first_scraped"),
          (match jGet fs "published_playlist_ids" with
            | some (.arr l) => parseStrList l
            | _ => none),
          (match jGet fs "tracks" with
            | some (.arr l) => parseTracks l
            | _ => none) with
      | some url, some nm, some desc, some dfs, some pub, some tracks =>
          some ⟨url, nm, desc, tracks, dfs, pub⟩
      | _, _, _, _, _, _ => none
  | _ => none

/-- Validity of an optional date. -/
def OptValid : Option Date → Prop
  | none => True
  | some r => r.Valid

instance (o : Option Date) : Decidable (OptValid o) := by
  cases o <;> unfold OptValid <;> infer_instance

/-- Well-formedness for the round trip: every date stored in the playlist is
a representable `datetime.date` (the Python values always are). -/
def ValidDates (p : CumulativePlaylist) : Prop :=
  p.date_first_scraped.Valid ∧
    ∀ t ∈ p.tracks, t.date_added.Valid ∧ OptValid t.date_removed

instance (p : CumulativePlaylist) : Decidable (ValidDates p) := by
  unfold ValidDates
  infer_instance

theorem parseArtists_roundtrip (l : List Artist) :
    parseArtists (l.map Artist.toJson) = some l := by
  induction l with
  | nil => rfl
  | cons a rest ih =>
      simp [Artist.toJson, parseArtists, jGet, asStr, ih]

theorem parseStrList_roundtrip (l : List String) :
    parseStrList (l.map JVal.str) = some l := by
  induction l with
  | nil => rfl
  | cons s rest ih =>
      simp [parseStrList, ih]

theorem parseCumulativeTrack_roundtrip (t : CumulativeTrack)
    (hda : t.date_added.Valid) (hdr : OptValid t.date_removed) :
    parseCumulativeTrack t.toJson = some t := by
  obtain ⟨url, nm, ⟨aurl, anm⟩, artists, dur, da, ast, dr⟩ := t
  cases dr with
  | none =>
      simp [CumulativeTrack.toJson, Album.toJson, parseCumulativeTrack, jGet,
        asStr, asBool, asInt, parseAlbum, parseArtists_roundtrip,
        parseDateField, parseOptDateField, parsePyDate_dateToStr hda]
  | some r =>
      have hr : r.Valid := hdr
      simp [CumulativeTrack.toJson, Album.toJson, parseCumulativeTrack, jGet,
        asStr, asBool, asInt, parseAlbum, parseArtists_roundtrip,
        parseDateField, parseOptDateField, parsePyDate_dateToStr hda,
        parsePyDate_dateToStr hr]

theorem parseTracks_roundtrip (l : List CumulativeTrack)
    (h : ∀ t ∈ l, t.date_added.Valid ∧ OptValid t.date_removed) :
    parseTracks (l.map CumulativeTrack.toJson) = some l := by
  induction l with
  | nil => rfl
  | cons t rest ih =>
      have ht := h t (List.mem_cons_self t rest)
      rw [List.map_cons, parseTracks,
        parseCumulativeTrack_roundtrip t ht.1 ht.2,
        ih (fun u hu => h u (List.mem_cons_of_mem t hu))]

/-- C10: serialization round trip — `from_json (to_json p) = p` for every
cumulative playlist whose dates are representable calendar dates. -/
theorem from_json_to_json_roundtrip (p : CumulativePlaylist)
    (h : ValidDates p) :
    CumulativePlaylist.from_json (CumulativePlaylist.to_json p) = some p := by
  obtain ⟨url, nm, desc, tracks, dfs, pub⟩ := p
  obtain ⟨hdfs, htracks⟩ := h
  simp [CumulativePlaylist.to_json, CumulativePlaylist.from_json, jGet,
    asStr, parseDateField, parsePyDate_dateToStr hdfs,
    parseStrList_roundtrip, parseTracks_roundtrip tracks htracks]

/-- Concrete playlist instantiating the serialization round trip, with an
asterisked removed track over a leap-year boundary date. -/
def exJsonPlaylist : CumulativePlaylist :=
  { url := "p/P1", name := "PL", description := "d",
    tracks := [{ url := "t/T1", name := "Song", album := ⟨"al", "Al"⟩,
                 artists := [⟨"ar", "Ar"⟩], duration_ms := 100,
                 date_added := ⟨2024, 2, 29⟩, date_added_asterisk := true,
                 date_removed := some ⟨2024, 3, 1⟩ }],
    date_first_scraped := ⟨2021, 12, 1⟩,
    published_playlist_ids := ["abc123"] }

theorem from_json_to_json_roundtrip_witness :
    ValidDates exJsonPlaylist ∧
    CumulativePlaylist.from_json (CumulativePlaylist.to_json exJsonPlaylist)
      = some exJsonPlaylist :=
  ⟨by decide, from_json_to_json_roundtrip exJsonPlaylist (by decide)⟩

/-! Duplicate-name disambiguation (file_updater.py
`FileUpdater._update_files_impl`, lines 156-200). The `playlists` dict is an
association list from playlist id to `Playlist`, in insertion order; keys are
unique. The `while any(...)` candidate search is modelled with fuel
`ps.length + 1`, which is proved sufficient (a free suffix always exists
among `ps.length + 1` candidates). -/

/-- Python `str(n)` for a nonnegative int. -/
def natToString (n : Nat) : String :=
  if n = 0 then "0" else String.mk (natChars n)

/-- The candidate name `f"{original_name} ({suffix})"`. -/
def candName (name : String) (n : Nat) : String :=
  name ++ " (" ++ natToString n ++ ")"

/-- The `any(...)` collision test: some other playlist currently has this
unique name. -/
def uniqueNameTaken (ps : List (String × Playlist)) (selfId cand : String) : Bool :=
  ps.any (fun kp => kp.1 ≠ selfId && kp.2.unique_name = cand)

/-- The `while` loop incrementing the suffix until the candidate is free. -/
def firstFreeSuffix (ps : List (String × Playlist)) (selfId name : String) :
    Nat → Nat → Nat
  | 0, n => n
  | fuel + 1, n =>
      if uniqueNameTaken ps selfId (candName name n) then
        firstFreeSuffix ps selfId name fuel (n + 1)
      else n

/-- `playlists[playlist_id] = Playlist(...)`: replace the entry, rebuilding
the playlist with the group's original name and the new unique name (all
other fields carried over). -/
def setUniqueName (ps : List (String × Playlist))
    (id originalName uniqueName : String) : List (String × Playlist) :=
  ps.map (fun kp =>
    if kp.1 = id then
      (kp.1, { kp.2 with
               original_name := originalName
               unique_name := uniqueName })
    else kp)

/-- The ids sharing an original name (`original_playlist_names_to_ids`). -/
def groupIds (ps : List (String × Playlist)) (name : String) : List String :=
  (ps.filter (fun kp => kp.2.original_name = name)).map Prod.fst

/-- Strict lexicographic comparison of character lists by code point —
Python's string `<`. -/
def charListLtb : List Char → List Char → Bool
  | [], [] => false
  | [], _ :: _ => true
  | _ :: _, [] => false
  | a :: as, b :: bs =>
      if a.toNat < b.toNat then true
      else if b.toNat < a.toNat then false
      else charListLtb as bs

/-- Python string `<` and `<=`. -/
def strLtb (a b : String) : Bool := charListLtb a.data b.data

def strLeb (a b : String) : Bool := !(strLtb b a)

/-- `-1 * (playlists[playlist_id].num_followers or 0)`. -/
def negFollowers (ps : List (String × Playlist)) (id : String) : Int :=
  -(match lookupBy Prod.fst id ps with
    | some kp => kp.2.num_followers.getD 0
    | none => 0)

/-- Python tuple comparison of the sort key `(-num_followers, playlist_id)`:
smaller negated follower count first, ties broken by id ascending. -/
def groupLEb (ps : List (String × Playlist)) (a b : String) : Bool :=
  decide (negFollowers ps a < negFollowers ps b) ||
    (decide (negFollowers ps a = negFollowers ps b) && strLeb a b)

def groupLE (ps : List (String × Playlist)) (a b : String) : Prop :=
  groupLEb ps a b = true

instance (ps : List (String × Playlist)) : DecidableRel (groupLE ps) :=
  fun a b => inferInstanceAs (Decidable (groupLEb ps a b = true))

theorem charListLtb_asymm :
    ∀ {as bs : List Char}, charListLtb as bs = true → charListLtb bs as = false := by
  intro as
  induction as with
  | nil =>
      intro bs h
      cases bs with
      | nil => cases h
      | cons b bs => rfl
  | cons a as ih =>
      intro bs h
      cases bs with
      | nil => cases h
      | cons b bs =>
          rw [charListLtb] at h ⊢
          by_cases h1 : a.toNat < b.toNat
          · rw [if_neg (by omega), if_pos h1]
          · rw [if_neg h1] at h
            by_cases h2 : b.toNat < a.toNat
            · rw [if_pos h2] at h
              cases h
            · rw [if_neg h2] at h
              rw [if_neg h2, if_neg h1]
              exact ih h

theorem charListLtb_comparison :
    ∀ {as bs cs : List Char}, charListLtb as cs = true →
      charListLtb as bs = true ∨ charListLtb bs cs = true := by
  intro as
  induction as with
  | nil =>
      intro bs cs h
      cases cs with
      | nil => cases h
      | cons c cs =>
          cases bs with
          | nil => exact Or.inr rfl
          | cons b bs => exact Or.inl rfl
  | cons a as ih =>
      intro bs cs h
      cases cs with
      | nil => cases h
      | cons c cs =>
          cases bs with
          | nil => exact Or.inr rfl
          | cons b bs =>
              rw [charListLtb] at h ⊢
              rw [charListLtb]
              by_cases hab : a.toNat < b.toNat
              · exact Or.inl (by rw [if_pos hab])
              · by_cases hbc : b.toNat < c.toNat
                · exact Or.inr (by rw [if_pos hbc])
                · by_cases hba : b.toNat < a.toNat
                  · -- then c.toNat ≤ b.toNat < a.toNat contradicts a < c or ties
                    by_cases hac : a.toNat < c.toNat
                    · omega
                    · rw [if_neg hac] at h
                      by_cases hca : c.toNat < a.toNat
                      · rw [if_pos hca] at h
                        cases h
                      · omega
                  · -- a.toNat = b.toNat
                    have hab2 : a.toNat = b.toNat := by omega
                    by_cases hac : a.toNat < c.toNat
                    · exact Or.inr (by rw [if_pos (by omega : b.toNat < c.toNat)])
                    · rw [if_neg hac] at h
                      by_cases hca : c.toNat < a.toNat
                      · rw [if_pos hca] at h
                        cases h
                      · rw [if_neg hca] at h
                        rcases ih h with h1 | h1
                        · refine Or.inl ?_
                          rw [if_neg hab, if_neg (by omega), h1]
                        · refine Or.inr ?_
                          rw [if_neg hbc, if_neg (by omega), h1]

instance (ps : List (String × Playlist)) : IsTotal String (groupLE ps) := by
  refine ⟨fun a b => ?_⟩
  unfold groupLE groupLEb strLeb
  rcases lt_trichotomy (negFollowers ps a) (negFollowers ps b) with h | h | h
  · refine Or.inl ?_
    simp [h]
  · by_cases hl : strLtb b a = true
    · refine Or.inr ?_
      have := charListLtb_asymm hl
      simp [h, strLtb] at this ⊢
      simp [strLtb, this]
    · refine Or.inl ?_
      simp [h]
      simpa using hl
  · refine Or.inr ?_
    simp [h]

instance (ps : List (String × Playlist)) : IsTrans String (groupLE ps) := by
  refine ⟨fun a b c hab hbc => ?_⟩
  unfold groupLE groupLEb strLeb at hab hbc ⊢
  simp only [Bool.or_eq_true, Bool.and_eq_true, decide_eq_true_eq,
    Bool.not_eq_true'] at hab hbc ⊢
  rcases hab with hab | ⟨hab, hab2⟩ <;> rcases hbc with hbc | ⟨hbc, hbc2⟩
  · exact Or.inl (lt_trans hab hbc)
  · exact Or.inl (by omega)
  · exact Or.inl (by omega)
  · refine Or.inr ⟨by omega, ?_⟩
    by_cases hca : strLtb c a = true
    · rcases @charListLtb_comparison c.data b.data a.data hca
        with h1 | h1
      · rw [show strLtb c b = true from h1] at hbc2
        cases hbc2
      · rw [show strLtb b a = true from h1] at hab2
        cases hab2
    · simpa using hca

/-- `sorted(playlist_ids, key=...)`: most-followed first, ties broken by id
ascending. -/
def sortGroup (ps : List (String × Playlist)) (ids : List String) : List String :=
  List.insertionSort (groupLE ps) ids

/-- The `for i, playlist_id in enumerate(sorted_by_num_followers)` body for
`i ≥ 1`: find the first free suffix starting at 2 against the current dict
state, then assign. -/
def assignOne (ps : List (String × Playlist)) (originalName id : String) :
    List (String × Playlist) :=
  setUniqueName ps id originalName
    (candName originalName (firstFreeSuffix ps id originalName (ps.length + 1) 2))

def assignSuffixes (originalName : String) :
    List String → List (String × Playlist) → List (String × Playlist)
  | [], ps => ps
  | id :: rest, ps => assignSuffixes originalName rest (assignOne ps originalName id)

/-- Process one duplicate-name group: the first (most-followed) member keeps
the bare name, the rest get suffixes in order. -/
def handleDuplicateGroup (ps : List (String × Playlist)) (originalName : String) :
    List (String × Playlist) :=
  match sortGroup ps (groupIds ps originalName) with
  | [] => ps
  | _ :: rest => assignSuffixes originalName rest ps

/-- `sorted(duplicate_names.items())`: the original names shared by more than
one playlist, in ascending string order. -/
def duplicateNames (ps : List (String × Playlist)) : List String :=
  List.insertionSort (fun a b => strLeb a b = true)
    (((ps.map (fun kp => kp.2.original_name)).dedup).filter
      (fun name => 2 ≤ (groupIds ps name).length))

/-- The whole duplicate-name handling pass. -/
def handleDuplicateNames (ps : List (String × Playlist)) :
    List (String × Playlist) :=
  (duplicateNames ps).foldl handleDuplicateGroup ps

/-! Utilities for the disambiguation proof. -/

theorem entry_unique {ps : List (String × Playlist)}
    (h : (ps.map Prod.fst).Nodup) {kp kq : String × Playlist}
    (hp : kp ∈ ps) (hq : kq ∈ ps) (hk : kp.1 = kq.1) : kp = kq := by
  induction ps with
  | nil => cases hp
  | cons x xs ih =>
      rw [List.map_cons, List.nodup_cons] at h
      rcases List.mem_cons.mp hp with rfl | hp2
      · rcases List.mem_cons.mp hq with rfl | hq2
        · rfl
        · exact absurd (hk ▸ List.mem_map_of_mem Prod.fst hq2) h.1
      · rcases List.mem_cons.mp hq with rfl | hq2
        · exact absurd (hk ▸ List.mem_map_of_mem Prod.fst hp2) h.1
        · exact ih h.2 hp2 hq2

theorem mem_groupIds_iff {ps : List (String × Playlist)} {name id : String} :
    id ∈ groupIds ps name ↔ ∃ kp ∈ ps, kp.1 = id ∧ kp.2.original_name = name := by
  unfold groupIds
  rw [List.mem_map]
  constructor
  · rintro ⟨kp, hmem, rfl⟩
    rw [List.mem_filter] at hmem
    exact ⟨kp, hmem.1, rfl, by simpa using hmem.2⟩
  · rintro ⟨kp, hmem, rfl, horig⟩
    exact ⟨kp, List.mem_filter.mpr ⟨hmem, by simpa using horig⟩, rfl⟩

theorem exists_entry_of_mem_keys {ps : List (String × Playlist)} {id : String}
    (h : id ∈ ps.map Prod.fst) : ∃ kp ∈ ps, kp.1 = id := by
  rcases List.mem_map.mp h with ⟨kp, hmem, rfl⟩
  exact ⟨kp, hmem, rfl⟩

theorem setUniqueName_keys (ps : List (String × Playlist))
    (id onm un : String) :
    (setUniqueName ps id onm un).map Prod.fst = ps.map Prod.fst := by
  unfold setUniqueName
  rw [List.map_map]
  apply List.map_congr_left
  intro kp _
  by_cases h : kp.1 = id <;> simp [h]

theorem setUniqueName_mem_untouched {ps : List (String × Playlist)}
    {id onm un : String} {kp : String × Playlist} (hmem : kp ∈ ps)
    (hne : kp.1 ≠ id) : kp ∈ setUniqueName ps id onm un := by
  unfold setUniqueName
  apply List.mem_map.mpr
  exact ⟨kp, hmem, by simp [hne]⟩

theorem setUniqueName_mem_touched {ps : List (String × Playlist)}
    {id onm un : String} {kp : String × Playlist} (hmem : kp ∈ ps)
    (heq : kp.1 = id) :
    (kp.1, { kp.2 with original_name := onm, unique_name := un })
      ∈ setUniqueName ps id onm un := by
  unfold setUniqueName
  apply List.mem_map.mpr
  exact ⟨kp, hmem, by simp [heq]⟩

theorem setUniqueName_mem_inv {ps : List (String × Playlist)}
    {id onm un : String} {kq : String × Playlist}
    (hmem : kq ∈ setUniqueName ps id onm un) :
    (∃ kp ∈ ps, kp.1 = id ∧ kq =
      (kp.1, { kp.2 with original_name := onm, unique_name := un })) ∨
    (kq ∈ ps ∧ kq.1 ≠ id) := by
  unfold setUniqueName at hmem
  rcases List.mem_map.mp hmem with ⟨kp, hkp, heq⟩
  by_cases h : kp.1 = id
  · rw [if_pos h] at heq
    exact Or.inl ⟨kp, hkp, h, heq.symm⟩
  · rw [if_neg h] at heq
    subst heq
    exact Or.inr ⟨hkp, h⟩

theorem uniqueNameTaken_iff {ps : List (String × Playlist)}
    {selfId cand : String} :
    uniqueNameTaken ps selfId cand = true ↔
      ∃ kp ∈ ps, kp.1 ≠ selfId ∧ kp.2.unique_name = cand := by
  unfold uniqueNameTaken
  rw [List.any_eq_true]
  constructor
  · rintro ⟨kp, hmem, hcond⟩
    simp only [Bool.and_eq_true, decide_eq_true_eq] at hcond
    exact ⟨kp, hmem, hcond.1, hcond.2⟩
  · rintro ⟨kp, hmem, hne, heq⟩
    refine ⟨kp, hmem, ?_⟩
    simp only [Bool.and_eq_true, decide_eq_true_eq]
    exact ⟨hne, heq⟩

theorem charsToNat_natChars (n : Nat) : charsToNat (natChars n) = n := by
  rw [natChars_eq, charsToNat,
    foldl_digitChars _ (fun d hd => Nat.digits_lt_base (by norm_num)
      (List.mem_reverse.mp hd)) 0,
    foldl_base10, List.reverse_reverse, Nat.ofDigits_digits]
  ring

theorem natToString_inj {a b : Nat} (ha : 1 ≤ a) (hb : 1 ≤ b)
    (h : natToString a = natToString b) : a = b := by
  unfold natToString at h
  rw [if_neg (by omega), if_neg (by omega)] at h
  have hdata : natChars a = natChars b := congrArg String.data h
  have := congrArg charsToNat hdata
  rwa [charsToNat_natChars, charsToNat_natChars] at this

theorem string_data_append (s t : String) : (s ++ t).data = s.data ++ t.data := rfl

theorem candName_inj {g : String} {a b : Nat} (ha : 1 ≤ a) (hb : 1 ≤ b)
    (h : candName g a = candName g b) : a = b := by
  unfold candName at h
  have hdata := congrArg String.data h
  simp only [string_data_append, List.append_assoc] at hdata
  have h2 := List.append_cancel_left hdata
  have h3 := List.append_cancel_left h2
  have h4 : (natToString a).data = (natToString b).data := by
    have h5 : (natToString a).data ++ (")").data
        = (natToString b).data ++ (")").data := h3
    exact List.append_cancel_right h5
  exact natToString_inj ha hb (congrArg String.mk h4)

theorem natToString_length_pos (n : Nat) : 1 ≤ (natToString n).data.length := by
  unfold natToString
  by_cases h : n = 0
  · rw [if_pos h]
    decide
  · rw [if_neg h]
    show 1 ≤ (natChars n).length
    rw [natChars_eq, List.length_map, List.length_reverse]
    have hne : Nat.digits 10 n ≠ [] := Nat.digits_ne_nil_iff_ne_zero.mpr h
    cases hd : Nat.digits 10 n with
    | nil => exact absurd hd hne
    | cons x xs => simp

theorem candName_ne_base (g : String) (n : Nat) : candName g n ≠ g := by
  intro h
  have := congrArg (fun s => s.data.length) h
  simp only [candName, string_data_append, List.length_append] at this
  have := natToString_length_pos n
  omega

/-- Among `ps.length + 1` consecutive suffix candidates some name is free:
each taken candidate needs a distinct holding playlist. -/
theorem exists_free_suffix (ps : List (String × Playlist)) (selfId name : String) :
    ∃ n, 2 ≤ n ∧ n < 2 + (ps.length + 1) ∧
      uniqueNameTaken ps selfId (candName name n) = false := by
  by_contra hcon
  push_neg at hcon
  have htaken : ∀ n ∈ Finset.Icc 2 (ps.length + 2),
      ∃ kp ∈ ps, kp.1 ≠ selfId ∧ kp.2.unique_name = candName name n := by
    intro n hn
    rw [Finset.mem_Icc] at hn
    have h := hcon n hn.1 (by omega)
    exact uniqueNameTaken_iff.mp (Bool.ne_false_iff.mp h)
  classical
  let junk : String × Playlist := ("", ⟨"", "", "", "", [], "", none, ⟨"", ""⟩⟩)
  let f : Nat → String × Playlist := fun n =>
    if h : ∃ kp ∈ ps, kp.1 ≠ selfId ∧ kp.2.unique_name = candName name n then
      h.choose
    else junk
  have hspec : ∀ n ∈ Finset.Icc 2 (ps.length + 2),
      f n ∈ ps ∧ (f n).2.unique_name = candName name n := by
    intro n hn
    have h := htaken n hn
    have hf : f n = h.choose := dif_pos h
    rw [hf]
    obtain ⟨hm, -, hu⟩ := h.choose_spec
    exact ⟨hm, hu⟩
  have hmaps : ∀ n ∈ Finset.Icc 2 (ps.length + 2), f n ∈ ps.toFinset := by
    intro n hn
    rw [List.mem_toFinset]
    exact (hspec n hn).1
  have hcard : ps.toFinset.card < (Finset.Icc 2 (ps.length + 2)).card := by
    have h1 : ps.toFinset.card ≤ ps.length := ps.toFinset_card_le
    rw [Nat.card_Icc]
    omega
  obtain ⟨a, ha, b, hb, hne, hfe⟩ :=
    Finset.exists_ne_map_eq_of_card_lt_of_maps_to hcard hmaps
  have h1 := (hspec a ha).2
  rw [hfe, (hspec b hb).2] at h1
  rw [Finset.mem_Icc] at ha hb
  exact hne (candName_inj (by omega) (by omega) h1.symm)

/-- The `while` loop returns the least free suffix at or above the start,
provided some free suffix exists within the fuel window. -/
theorem firstFreeSuffix_spec (ps : List (String × Playlist))
    (selfId name : String) :
    ∀ (fuel n0 : Nat),
      (∃ n, n0 ≤ n ∧ n < n0 + fuel ∧
        uniqueNameTaken ps selfId (candName name n) = false) →
      n0 ≤ firstFreeSuffix ps selfId name fuel n0 ∧
      uniqueNameTaken ps selfId
        (candName name (firstFreeSuffix ps selfId name fuel n0)) = false ∧
      ∀ m, n0 ≤ m → m < firstFreeSuffix ps selfId name fuel n0 →
        uniqueNameTaken ps selfId (candName name m) = true := by
  intro fuel
  induction fuel with
  | zero =>
      rintro n0 ⟨n, h1, h2, -⟩
      omega
  | succ fuel ih =>
      intro n0 hex
      rw [firstFreeSuffix]
      by_cases ht : uniqueNameTaken ps selfId (candName name n0) = true
      · rw [if_pos ht]
        have hex2 : ∃ n, n0 + 1 ≤ n ∧ n < (n0 + 1) + fuel ∧
            uniqueNameTaken ps selfId (candName name n) = false := by
          obtain ⟨n, h1, h2, h3⟩ := hex
          have hne : n ≠ n0 := by
            intro he
            rw [he, ht] at h3
            cases h3
          exact ⟨n, by omega, by omega, h3⟩
        obtain ⟨hm1, hm2, hm3⟩ := ih (n0 + 1) hex2
        refine ⟨by omega, hm2, ?_⟩
        intro m hm hlt
        by_cases he : m = n0
        · rw [he]
          exact ht
        · exact hm3 m (by omega) hlt
      · rw [if_neg ht]
        refine ⟨le_refl n0, Bool.not_eq_true _ ▸ (by simpa using ht), ?_⟩
        intro m hm hlt
        omega

/-! State-shape preservation: everything except `unique_name` is untouched
by the disambiguation pass. -/

/-- Correspondence of entries: same key, original name and follower count. -/
def shapeRel (kp kq : String × Playlist) : Prop :=
  kp.1 = kq.1 ∧ kp.2.original_name = kq.2.original_name ∧
    kp.2.num_followers = kq.2.num_followers

def SameShape (ps qs : List (String × Playlist)) : Prop :=
  List.Forall₂ shapeRel ps qs

theorem sameShape_refl (ps : List (String × Playlist)) : SameShape ps ps :=
  List.forall₂_same.mpr (fun _ _ => ⟨rfl, rfl, rfl⟩)

theorem sameShape_trans {ps qs rs : List (String × Playlist)}
    (h1 : SameShape ps qs) (h2 : SameShape qs rs) : SameShape ps rs := by
  induction h1 generalizing rs with
  | nil => cases h2; exact List.Forall₂.nil
  | cons hr hrest ih =>
      cases h2 with
      | cons hr2 hrest2 =>
          exact List.Forall₂.cons
            ⟨hr.1.trans hr2.1, hr.2.1.trans hr2.2.1, hr.2.2.trans hr2.2.2⟩
            (ih hrest2)

theorem sameShape_keys {ps qs : List (String × Playlist)}
    (h : SameShape ps qs) : ps.map Prod.fst = qs.map Prod.fst := by
  induction h with
  | nil => rfl
  | cons hr _ ih => simp [hr.1, ih]

theorem sameShape_groupIds {ps qs : List (String × Playlist)}
    (h : SameShape ps qs) (name : String) :
    groupIds ps name = groupIds qs name := by
  unfold groupIds
  induction h with
  | nil => rfl
  | cons hr hrest ih =>
      rename_i a b l1 l2
      rw [List.filter_cons, List.filter_cons]
      by_cases hc : a.2.original_name = name
      · rw [if_pos (by simpa using hc),
          if_pos (by simp [← hr.2.1]; exact hc)]
        rw [List.map_cons, List.map_cons, hr.1]
        rw [ih]
      · rw [if_neg (by simpa using hc),
          if_neg (by simp [← hr.2.1]; exact hc)]
        exact ih

/-- Option-level shape correspondence for lookups. -/
def optShape : Option (String × Playlist) → Option (String × Playlist) → Prop
  | none, none => True
  | some kp, some kq => shapeRel kp kq
  | _, _ => False

theorem sameShape_lookup {ps qs : List (String × Playlist)}
    (h : SameShape ps qs) (id : String) :
    ∀ {acc1 acc2 : Option (String × Playlist)}, optShape acc1 acc2 →
      optShape
        (ps.foldl (fun acc t => if Prod.fst t = id then some t else acc) acc1)
        (qs.foldl (fun acc t => if Prod.fst t = id then some t else acc) acc2) := by
  induction h with
  | nil => intro acc1 acc2 hacc; exact hacc
  | cons hr hrest ih =>
      rename_i a b l1 l2
      intro acc1 acc2 hacc
      rw [List.foldl_cons, List.foldl_cons]
      by_cases hc : a.1 = id
      · rw [if_pos hc, if_pos (hr.1 ▸ hc)]
        exact ih hr
      · rw [if_neg hc, if_neg (fun hb => hc (hr.1.trans hb))]
        exact ih hacc

theorem sameShape_negFollowers {ps qs : List (String × Playlist)}
    (h : SameShape ps qs) (id : String) :
    negFollowers ps id = negFollowers qs id := by
  unfold negFollowers
  have hl := sameShape_lookup h id (show optShape none none from True.intro)
  show -(match lookupBy Prod.fst id ps with
    | some kp => kp.2.num_followers.getD 0
    | none => 0) = -(match lookupBy Prod.fst id qs with
    | some kp => kp.2.num_followers.getD 0
    | none => 0)
  unfold lookupBy at *
  cases h1 : ps.foldl (fun acc t => if Prod.fst t = id then some t else acc) none with
  | none =>
      cases h2 : qs.foldl (fun acc t => if Prod.fst t = id then some t else acc) none with
      | none => rfl
      | some kq => rw [h1, h2] at hl; cases hl
  | some kp =>
      cases h2 : qs.foldl (fun acc t => if Prod.fst t = id then some t else acc) none with
      | none => rw [h1, h2] at hl; cases hl
      | some kq =>
          rw [h1, h2] at hl
          show -(kp.2.num_followers.getD 0) = -(kq.2.num_followers.getD 0)
          rw [hl.2.2]

theorem sameShape_groupLEb {ps qs : List (String × Playlist)}
    (h : SameShape ps qs) (a b : String) :
    groupLEb ps a b = groupLEb qs a b := by
  unfold groupLEb
  rw [sameShape_negFollowers h a, sameShape_negFollowers h b]

theorem orderedInsert_congr {α : Type} {r s : α → α → Prop}
    [DecidableRel r] [DecidableRel s] (h : ∀ a b, r a b ↔ s a b) (a : α) :
    ∀ l, List.orderedInsert r a l = List.orderedInsert s a l
  | [] => rfl
  | b :: l => by
      rw [List.orderedInsert, List.orderedInsert]
      by_cases hr : r a b
      · rw [if_pos hr, if_pos ((h a b).mp hr)]
      · rw [if_neg hr, if_neg (fun hs => hr ((h a b).mpr hs)),
          orderedInsert_congr h a l]

theorem insertionSort_congr {α : Type} {r s : α → α → Prop}
    [DecidableRel r] [DecidableRel s] (h : ∀ a b, r a b ↔ s a b) :
    ∀ l, List.insertionSort r l = List.insertionSort s l
  | [] => rfl
  | a :: l => by
      rw [List.insertionSort, List.insertionSort, insertionSort_congr h l,
        orderedInsert_congr h a _]

theorem sameShape_sortGroup {ps qs : List (String × Playlist)}
    (h : SameShape ps qs) (ids : List String) :
    sortGroup ps ids = sortGroup qs ids := by
  unfold sortGroup
  apply insertionSort_congr
  intro a b
  unfold groupLE
  rw [sameShape_groupLEb h a b]

theorem setUniqueName_sameShape (ps : List (String × Playlist))
    (id onm un : String)
    (h : ∀ kp ∈ ps, kp.1 = id → kp.2.original_name = onm) :
    SameShape ps (setUniqueName ps id onm un) := by
  unfold setUniqueName
  induction ps with
  | nil => exact List.Forall₂.nil
  | cons kp rest ih =>
      rw [List.map_cons]
      refine List.Forall₂.cons ?_
        (ih (fun kq hq hk => h kq (List.mem_cons_of_mem kp hq) hk))
      by_cases hc : kp.1 = id
      · rw [if_pos hc]
        exact ⟨rfl, h kp (List.mem_cons_self kp rest) hc, rfl⟩
      · rw [if_neg hc]
        exact ⟨rfl, rfl, rfl⟩

/-! Invariants carried through the duplicate-name pass. -/

/-- Entries whose original name is still unprocessed are still bare
(`unique_name` equals `original_name`). -/
def AllBareIn (q : List (String × Playlist)) (rem : List String) : Prop :=
  ∀ kp ∈ q, kp.2.original_name ∈ rem → kp.2.unique_name = kp.2.original_name

/-- All unique-name collisions are confined to unprocessed groups. -/
def CollisionsIn (q : List (String × Playlist)) (rem : List String) : Prop :=
  ∀ kp ∈ q, ∀ kq ∈ q, kp.1 ≠ kq.1 → kp.2.unique_name = kq.2.unique_name →
    kp.2.original_name ∈ rem ∧ kq.2.original_name ∈ rem

/-- Mid-group variant: a colliding entry of the group being processed is
still bare; all other colliding entries belong to later groups. -/
def InnerColl (q : List (String × Playlist)) (g : String)
    (post : List String) : Prop :=
  ∀ kp ∈ q, ∀ kq ∈ q, kp.1 ≠ kq.1 → kp.2.unique_name = kq.2.unique_name →
    ((kp.2.original_name = g ∧ kp.2.unique_name = g) ∨
      kp.2.original_name ∈ post) ∧
    ((kq.2.original_name = g ∧ kq.2.unique_name = g) ∨
      kq.2.original_name ∈ post)

/-- The outer loop invariant: shape preserved, unprocessed groups bare,
collisions confined to unprocessed groups. -/
def Good (ps₀ q : List (String × Playlist)) (rem : List String) : Prop :=
  SameShape ps₀ q ∧ AllBareIn q rem ∧ CollisionsIn q rem

theorem entry_unique_of_shape {ps₀ q : List (String × Playlist)}
    (hkeys : (ps₀.map Prod.fst).Nodup) (h : SameShape ps₀ q)
    {kp kq : String × Playlist} (hp : kp ∈ q) (hq : kq ∈ q)
    (hk : kp.1 = kq.1) : kp = kq := by
  rw [sameShape_keys h] at hkeys
  exact entry_unique hkeys hp hq hk

theorem sameShape_mem_right {ps qs : List (String × Playlist)}
    (h : SameShape ps qs) {kq : String × Playlist} (hkq : kq ∈ qs) :
    ∃ kp ∈ ps, shapeRel kp kq := by
  induction h with
  | nil => cases hkq
  | cons hr hrest ih =>
      rcases List.mem_cons.mp hkq with rfl | h2
      · exact ⟨_, List.mem_cons_self _ _, hr⟩
      · obtain ⟨kp, hkp, hs⟩ := ih h2
        exact ⟨kp, List.mem_cons_of_mem _ hkp, hs⟩

theorem two_le_length_of_two_mem {α : Type} {l : List α} {a b : α}
    (ha : a ∈ l) (hb : b ∈ l) (hab : a ≠ b) : 2 ≤ l.length := by
  match l with
  | [] => cases ha
  | [x] =>
      rw [List.mem_singleton] at ha hb
      exact absurd (ha.trans hb.symm) hab
  | x :: y :: t => simp [List.length_cons]

theorem groupIds_nodup {q : List (String × Playlist)}
    (hkeys : (q.map Prod.fst).Nodup) (g : String) :
    (groupIds q g).Nodup := by
  unfold groupIds
  exact hkeys.sublist ((List.filter_sublist q).map Prod.fst)

theorem sortGroup_perm (q : List (String × Playlist)) (ids : List String) :
    List.Perm (sortGroup q ids) ids :=
  List.perm_insertionSort (groupLE q) ids

theorem sortGroup_sorted (q : List (String × Playlist)) (ids : List String) :
    List.Sorted (groupLE q) (sortGroup q ids) :=
  List.sorted_insertionSort (groupLE q) ids

theorem duplicateNames_nodup (ps : List (String × Playlist)) :
    (duplicateNames ps).Nodup := by
  unfold duplicateNames
  exact (List.perm_insertionSort _ _).symm.nodup
    ((ps.map (fun kp => kp.2.original_name)).nodup_dedup.filter _)

theorem mem_duplicateNames {ps : List (String × Playlist)} {g : String}
    (hdup : 2 ≤ (groupIds ps g).length) : g ∈ duplicateNames ps := by
  unfold duplicateNames
  rw [(List.perm_insertionSort _ _).mem_iff, List.mem_filter]
  constructor
  · rw [List.mem_dedup]
    cases hG : groupIds ps g with
    | nil => rw [hG] at hdup; cases hdup
    | cons a t =>
        have ha : a ∈ groupIds ps g := hG ▸ List.mem_cons_self a t
        obtain ⟨kp, hkp, -, horig⟩ := mem_groupIds_iff.mp ha
        exact List.mem_map.mpr ⟨kp, hkp, horig⟩
  · simpa using hdup

theorem not_taken {ps : List (String × Playlist)} {selfId cand : String}
    (h : uniqueNameTaken ps selfId cand = false) :
    ∀ kp ∈ ps, kp.1 ≠ selfId → kp.2.unique_name ≠ cand := by
  intro kp hm hne he
  rw [uniqueNameTaken_iff.mpr ⟨kp, hm, hne, he⟩] at h
  cases h

theorem assignSuffixes_frame (g : String) :
    ∀ (T : List String) (q : List (String × Playlist))
      {kp : String × Playlist}, kp ∈ q → kp.1 ∉ T →
      kp ∈ assignSuffixes g T q := by
  intro T
  induction T with
  | nil => intro q kp h _; exact h
  | cons id T' ih =>
      intro q kp h hn
      rw [assignSuffixes]
      refine ih _ ?_ (fun hx => hn (List.mem_cons_of_mem _ hx))
      unfold assignOne
      exact setUniqueName_mem_untouched h
        (fun he => hn (he ▸ List.mem_cons_self _ _))

/-- Full specification of a single suffix assignment: the chosen suffix is
at least 2, the target entry gets the candidate name, all other entries are
untouched, no other entry currently holds the chosen candidate, and every
smaller candidate from 2 on is currently held by some other entry. -/
theorem assignOne_spec (ps₀ : List (String × Playlist))
    (hkeys : (ps₀.map Prod.fst).Nodup) (q : List (String × Playlist))
    (hshape : SameShape ps₀ q) (g id : String) (kp₀ : String × Playlist)
    (hkp₀ : kp₀ ∈ q) (hkey₀ : kp₀.1 = id) (horig₀ : kp₀.2.original_name = g) :
    ∃ n, 2 ≤ n ∧
      SameShape q (assignOne q g id) ∧
      (∀ kp ∈ q, kp.1 ≠ id → kp ∈ assignOne q g id) ∧
      ((id, { kp₀.2 with original_name := g, unique_name := candName g n })
        ∈ assignOne q g id) ∧
      (∀ kq ∈ assignOne q g id,
        kq = (id, { kp₀.2 with
                    original_name := g
                    unique_name := candName g n }) ∨
        (kq ∈ q ∧ kq.1 ≠ id)) ∧
      (∀ kq ∈ q, kq.1 ≠ id → kq.2.unique_name ≠ candName g n) ∧
      (∀ m, 2 ≤ m → m < n →
        ∃ kq ∈ q, kq.1 ≠ id ∧ kq.2.unique_name = candName g m) := by
  have hqkeys : (q.map Prod.fst).Nodup := by
    rw [← sameShape_keys hshape]; exact hkeys
  obtain ⟨hn2, hfree, hmin⟩ :=
    firstFreeSuffix_spec q id g (q.length + 1) 2 (exists_free_suffix q id g)
  refine ⟨firstFreeSuffix q id g (q.length + 1) 2, hn2, ?_, ?_, ?_, ?_, ?_, ?_⟩
  · unfold assignOne
    apply setUniqueName_sameShape
    intro kp hm hk
    have he : kp = kp₀ :=
      entry_unique hqkeys hm hkp₀ (by rw [hk, hkey₀])
    rw [he]
    exact horig₀
  · intro kp hm hne
    unfold assignOne
    exact setUniqueName_mem_untouched hm hne
  · unfold assignOne
    have h := @setUniqueName_mem_touched q id g
      (candName g (firstFreeSuffix q id g (q.length + 1) 2)) kp₀ hkp₀ hkey₀
    rw [hkey₀] at h
    exact h
  · intro kq hkq
    unfold assignOne at hkq
    rcases setUniqueName_mem_inv hkq with ⟨kp', hkp', hk', he'⟩ | h
    · left
      have heq : kp' = kp₀ := entry_unique hqkeys hkp' hkp₀ (by rw [hk', hkey₀])
      rw [he', heq, hkey₀]
    · right
      exact h
  · exact not_taken hfree
  · intro m h2 hlt
    exact uniqueNameTaken_iff.mp (hmin m h2 hlt)

/-- Specification of suffix assignment over the tail of a sorted duplicate
group: shape preserved, untouched entries framed, later-group bareness and
the collision invariant preserved, and every tail member ends with a fresh
`"g (n)"` name with every smaller suffix held by some other playlist. -/
theorem assignSuffixes_spec (ps₀ : List (String × Playlist))
    (hkeys : (ps₀.map Prod.fst).Nodup) (g : String) (post : List String)
    (hgpost : g ∉ post) :
    ∀ (T : List String) (q : List (String × Playlist)),
      SameShape ps₀ q → T.Nodup →
      (∀ id ∈ T, ∃ kp ∈ q, kp.1 = id ∧ kp.2.original_name = g ∧
        kp.2.unique_name = g) →
      AllBareIn q post → InnerColl q g post →
      SameShape ps₀ (assignSuffixes g T q) ∧
      (∀ kp ∈ q, kp.1 ∉ T → kp ∈ assignSuffixes g T q) ∧
      AllBareIn (assignSuffixes g T q) post ∧
      InnerColl (assignSuffixes g T q) g post ∧
      (∀ id ∈ T, ∃ n, 2 ≤ n ∧
        (∃ kp ∈ assignSuffixes g T q, kp.1 = id ∧
          kp.2.unique_name = candName g n) ∧
        (∀ m, 2 ≤ m → m < n → ∃ kq ∈ assignSuffixes g T q,
          kq.1 ≠ id ∧ kq.2.unique_name = candName g m)) := by
  intro T
  induction T with
  | nil =>
      intro q hshape hnodup hbareT hbpost hcoll
      refine ⟨hshape, fun kp h _ => h, hbpost, hcoll, ?_⟩
      intro id h
      cases h
  | cons id T' ih =>
      intro q hshape hnodup hbareT hbpost hcoll
      obtain ⟨hid_notmem, hnodup'⟩ := List.nodup_cons.mp hnodup
      obtain ⟨kp₀, hkp₀, hkey₀, horig₀, hbare₀⟩ :=
        hbareT id (List.mem_cons_self _ _)
      obtain ⟨n, hn2, hsh_step, hr_untouched, hr_touched, hr_inv, hfresh,
        hheld⟩ := assignOne_spec ps₀ hkeys q hshape g id kp₀ hkp₀ hkey₀ horig₀
      have hshape' : SameShape ps₀ (assignOne q g id) :=
        sameShape_trans hshape hsh_step
      -- hypotheses for the recursive call on the updated state
      have h3 : ∀ id' ∈ T', ∃ kp ∈ assignOne q g id, kp.1 = id' ∧
          kp.2.original_name = g ∧ kp.2.unique_name = g := by
        intro id' hid'
        obtain ⟨kp', hkp', hk', ho', hb'⟩ :=
          hbareT id' (List.mem_cons_of_mem _ hid')
        have hne : kp'.1 ≠ id := by
          rw [hk']
          intro he
          exact hid_notmem (he ▸ hid')
        exact ⟨kp', hr_untouched kp' hkp' hne, hk', ho', hb'⟩
      have h4 : AllBareIn (assignOne q g id) post := by
        intro kq hkq hmemo
        rcases hr_inv kq hkq with he | ⟨hq, -⟩
        · rw [he] at hmemo
          exact absurd hmemo hgpost
        · exact hbpost kq hq hmemo
      have h5 : InnerColl (assignOne q g id) g post := by
        intro kp hkp kq hkq hnekey hname
        rcases hr_inv kp hkp with hpe | ⟨hpq, hpne⟩ <;>
          rcases hr_inv kq hkq with hqe | ⟨hqq, hqne⟩
        · exact absurd (by rw [hpe, hqe]) hnekey
        · exfalso
          refine hfresh kq hqq hqne ?_
          rw [← hname, hpe]
        · exfalso
          refine hfresh kp hpq hpne ?_
          rw [hname, hqe]
        · exact hcoll kp hpq kq hqq hnekey hname
      obtain ⟨o1, o2, o3, o4, o5⟩ :=
        ih (assignOne q g id) hshape' hnodup' h3 h4 h5
      have hstep_eq : assignSuffixes g (id :: T') q =
          assignSuffixes g T' (assignOne q g id) := by
        rw [assignSuffixes]
      rw [hstep_eq]
      refine ⟨o1, ?_, o3, o4, ?_⟩
      · intro kp hm hnot
        refine o2 kp (hr_untouched kp hm ?_) ?_
        · intro he
          exact hnot (he ▸ List.mem_cons_self _ _)
        · intro he
          exact hnot (List.mem_cons_of_mem _ he)
      · intro id' hid'
        rcases List.mem_cons.mp hid' with rfl | hmem'
        · refine ⟨n, hn2, ?_, ?_⟩
          · refine ⟨(id', { kp₀.2 with
              original_name := g
              unique_name := candName g n }), o2 _ hr_touched ?_, rfl, rfl⟩
            exact hid_notmem
          · intro m h2 hlt
            obtain ⟨kq, hkq, hkqne, hkqname⟩ := hheld m h2 hlt
            have hkq_r : kq ∈ assignOne q g id' := hr_untouched kq hkq hkqne
            have hkq_not : kq.1 ∉ T' := by
              intro hmem
              obtain ⟨kb, hkb, hkbk, -, hkbu⟩ := h3 kq.1 hmem
              have heq : kb = kq :=
                entry_unique_of_shape hkeys hshape' hkb hkq_r hkbk
              rw [heq] at hkbu
              rw [hkbu] at hkqname
              exact candName_ne_base g m hkqname.symm
            exact ⟨kq, o2 kq hkq_r hkq_not, hkqne, hkqname⟩
        · exact o5 id' hmem'

theorem innerColl_of_good {ps₀ q : List (String × Playlist)} {g : String}
    {post : List String} (hGood : Good ps₀ q (g :: post)) :
    InnerColl q g post := by
  obtain ⟨-, hbare, hcoll⟩ := hGood
  intro kp hkp kq hkq hne hname
  obtain ⟨h1, h2⟩ := hcoll kp hkp kq hkq hne hname
  constructor
  · rcases List.mem_cons.mp h1 with he | h1'
    · exact Or.inl ⟨he, (hbare kp hkp h1).trans he⟩
    · exact Or.inr h1'
  · rcases List.mem_cons.mp h2 with he | h2'
    · exact Or.inl ⟨he, (hbare kq hkq h2).trans he⟩
    · exact Or.inr h2'

theorem mem_sortGroup_entry {q : List (String × Playlist)}
    {g x : String} (hx : x ∈ sortGroup q (groupIds q g)) :
    ∃ kp ∈ q, kp.1 = x ∧ kp.2.original_name = g :=
  mem_groupIds_iff.mp ((sortGroup_perm q (groupIds q g)).mem_iff.mp hx)

/-- Processing one duplicate-name group preserves the outer invariant. -/
theorem handleGroup_step (ps₀ : List (String × Playlist))
    (hkeys : (ps₀.map Prod.fst).Nodup) (g : String) (post : List String)
    (hgpost : g ∉ post) (q : List (String × Playlist))
    (hGood : Good ps₀ q (g :: post)) :
    Good ps₀ (handleDuplicateGroup q g) post := by
  obtain ⟨hshape, hbare, hcoll⟩ := hGood
  have hqkeys : (q.map Prod.fst).Nodup := by
    rw [← sameShape_keys hshape]; exact hkeys
  unfold handleDuplicateGroup
  cases hS : sortGroup q (groupIds q g) with
  | nil =>
      have hnog : ∀ kp ∈ q, kp.2.original_name ≠ g := by
        intro kp hm he
        have h1 : kp.1 ∈ groupIds q g := mem_groupIds_iff.mpr ⟨kp, hm, rfl, he⟩
        rw [← (sortGroup_perm q (groupIds q g)).mem_iff, hS] at h1
        cases h1
      refine ⟨hshape, fun kp hm h => hbare kp hm (List.mem_cons_of_mem _ h), ?_⟩
      intro kp hkp kq hkq hne hname
      obtain ⟨h1, h2⟩ := hcoll kp hkp kq hkq hne hname
      constructor
      · rcases List.mem_cons.mp h1 with he | h1'
        · exact absurd he (hnog kp hkp)
        · exact h1'
      · rcases List.mem_cons.mp h2 with he | h2'
        · exact absurd he (hnog kq hkq)
        · exact h2'
  | cons hd tl =>
      have hSnodup : (hd :: tl).Nodup := by
        rw [← hS]
        exact (sortGroup_perm q (groupIds q g)).symm.nodup
          (groupIds_nodup hqkeys g)
      have hbareT : ∀ id ∈ tl, ∃ kp ∈ q, kp.1 = id ∧
          kp.2.original_name = g ∧ kp.2.unique_name = g := by
        intro id hid
        obtain ⟨kp, hkp, hk, ho⟩ := mem_sortGroup_entry
          (hS ▸ List.mem_cons_of_mem hd hid)
        refine ⟨kp, hkp, hk, ho, ?_⟩
        rw [hbare kp hkp (ho ▸ List.mem_cons_self _ _), ho]
      obtain ⟨o1, o2, o3, o4, o5⟩ := assignSuffixes_spec ps₀ hkeys g post
        hgpost tl q hshape (List.nodup_cons.mp hSnodup).2 hbareT
        (fun kp hm h => hbare kp hm (List.mem_cons_of_mem _ h))
        (innerColl_of_good ⟨hshape, hbare, hcoll⟩)
      refine ⟨o1, o3, ?_⟩
      have hgids : groupIds (assignSuffixes g tl q) g = groupIds q g := by
        rw [← sameShape_groupIds o1, sameShape_groupIds hshape]
      have hbareg_hd : ∀ kp ∈ assignSuffixes g tl q,
          kp.2.original_name = g → kp.2.unique_name = g → kp.1 = hd := by
        intro kp hkp horig hname
        have h1 : kp.1 ∈ groupIds q g := by
          rw [← hgids]
          exact mem_groupIds_iff.mpr ⟨kp, hkp, rfl, horig⟩
        rw [← (sortGroup_perm q (groupIds q g)).mem_iff, hS] at h1
        rcases List.mem_cons.mp h1 with he | htl
        · exact he
        · exfalso
          obtain ⟨n, -, ⟨kpF, hkpF, hkeyF, hnameF⟩, -⟩ := o5 kp.1 htl
          have heq : kpF = kp :=
            entry_unique_of_shape hkeys o1 hkpF hkp hkeyF
          rw [heq] at hnameF
          rw [hname] at hnameF
          exact candName_ne_base g n hnameF.symm
      intro kp hkp kq hkq hne hname
      obtain ⟨hp, hq2⟩ := o4 kp hkp kq hkq hne hname
      rcases hp with ⟨hpo, hpu⟩ | hpo <;> rcases hq2 with ⟨hqo, hqu⟩ | hqo
      · exact absurd ((hbareg_hd kp hkp hpo hpu).trans
          (hbareg_hd kq hkq hqo hqu).symm) hne
      · exfalso
        apply hgpost
        have hb := o3 kq hkq hqo
        rw [← hb, ← hname, hpu] at hqo
        exact hqo
      · exfalso
        apply hgpost
        have hb := o3 kp hkp hpo
        rw [← hb, hname, hqu] at hpo
        exact hpo
      · exact ⟨hpo, hqo⟩

/-- Iterating the group handler over a Nodup batch of names preserves the
outer invariant. -/
theorem good_iter (ps₀ : List (String × Playlist))
    (hkeys : (ps₀.map Prod.fst).Nodup) :
    ∀ (L : List String) (rest : List String) (q : List (String × Playlist)),
      (L ++ rest).Nodup → Good ps₀ q (L ++ rest) →
      Good ps₀ (L.foldl handleDuplicateGroup q) rest := by
  intro L
  induction L with
  | nil => intro rest q _ h; exact h
  | cons gname L' ih =>
      intro rest q hnd hGood
      rw [List.foldl_cons]
      rw [List.cons_append, List.nodup_cons] at hnd
      exact ih rest _ hnd.2
        (handleGroup_step ps₀ hkeys gname (L' ++ rest) hnd.1 q hGood)

/-- Entries whose original name never comes up again are never modified. -/
theorem entry_persist (ps₀ : List (String × Playlist))
    (hkeys : (ps₀.map Prod.fst).Nodup) :
    ∀ (rem : List String) (q : List (String × Playlist))
      (kp : String × Playlist), rem.Nodup → Good ps₀ q rem → kp ∈ q →
      kp.2.original_name ∉ rem →
      kp ∈ rem.foldl handleDuplicateGroup q := by
  intro rem
  induction rem with
  | nil => intro q kp _ _ h _; exact h
  | cons gname post ih =>
      intro q kp hnd hGood hkp hnotin
      rw [List.foldl_cons]
      obtain ⟨hg_notmem, hnd'⟩ := List.nodup_cons.mp hnd
      have hqkeys : (q.map Prod.fst).Nodup := by
        rw [← sameShape_keys hGood.1]; exact hkeys
      have hstep := handleGroup_step ps₀ hkeys gname post hg_notmem q hGood
      have hkp' : kp ∈ handleDuplicateGroup q gname := by
        unfold handleDuplicateGroup
        cases hS : sortGroup q (groupIds q gname) with
        | nil => exact hkp
        | cons hd tl =>
            refine assignSuffixes_frame gname tl q hkp ?_
            intro hmem
            obtain ⟨kq, hkq, hkqk, hkqo⟩ := mem_sortGroup_entry
              (hS ▸ List.mem_cons_of_mem hd hmem)
            have heq : kq = kp := entry_unique hqkeys hkq hkp hkqk
            rw [heq] at hkqo
            exact hnotin (hkqo ▸ List.mem_cons_self _ _)
      exact ih _ kp hnd' hstep hkp'
        (fun h => hnotin (List.mem_cons_of_mem _ h))

/-- A unique name held by some playlist other than `id` is still held by
some playlist other than `id` at the end of the pass: reassignment can only
strip a bare group name, which the group's most-followed member keeps. -/
theorem holders_persist (ps₀ : List (String × Playlist))
    (hkeys : (ps₀.map Prod.fst).Nodup) :
    ∀ (rem : List String) (q : List (String × Playlist)) (id c : String),
      rem.Nodup → Good ps₀ q rem →
      (∀ kp₀ ∈ ps₀, kp₀.1 = id → kp₀.2.original_name ∉ rem) →
      (∃ kq ∈ q, kq.1 ≠ id ∧ kq.2.unique_name = c) →
      ∃ kq ∈ rem.foldl handleDuplicateGroup q,
        kq.1 ≠ id ∧ kq.2.unique_name = c := by
  intro rem
  induction rem with
  | nil => intro q id c _ _ _ h; exact h
  | cons gname post ih =>
      intro q id c hnd hGood hid hholder
      rw [List.foldl_cons]
      obtain ⟨hg_notmem, hnd'⟩ := List.nodup_cons.mp hnd
      obtain ⟨hshape, hbare, hcoll⟩ := hGood
      have hqkeys : (q.map Prod.fst).Nodup := by
        rw [← sameShape_keys hshape]; exact hkeys
      have hstep := handleGroup_step ps₀ hkeys gname post hg_notmem q
        ⟨hshape, hbare, hcoll⟩
      have hhold' : ∃ kq ∈ handleDuplicateGroup q gname,
          kq.1 ≠ id ∧ kq.2.unique_name = c := by
        obtain ⟨kq, hkq, hkqne, hkqc⟩ := hholder
        unfold handleDuplicateGroup
        cases hS : sortGroup q (groupIds q gname) with
        | nil => exact ⟨kq, hkq, hkqne, hkqc⟩
        | cons hd tl =>
            have hSnodup : (hd :: tl).Nodup := by
              rw [← hS]
              exact (sortGroup_perm q (groupIds q gname)).symm.nodup
                (groupIds_nodup hqkeys gname)
            by_cases hmem : kq.1 ∈ tl
            · obtain ⟨kq', hkq', hk', ho'⟩ := mem_sortGroup_entry
                (hS ▸ List.mem_cons_of_mem hd hmem)
              have he : kq' = kq := entry_unique hqkeys hkq' hkq hk'
              have hqorig : kq.2.original_name = gname := he ▸ ho'
              have hc : c = gname := by
                rw [← hkqc, hbare kq hkq (hqorig ▸ List.mem_cons_self _ _),
                  hqorig]
              obtain ⟨kh, hkh, hkhk, hkho⟩ := mem_sortGroup_entry
                (hS ▸ List.mem_cons_self hd tl)
              have hkhbare : kh.2.unique_name = gname := by
                rw [hbare kh hkh (hkho ▸ List.mem_cons_self _ _), hkho]
              have hkhne : kh.1 ≠ id := by
                intro he2
                obtain ⟨kp₀, hkp₀, hrel⟩ := sameShape_mem_right hshape hkh
                refine hid kp₀ hkp₀ (by rw [hrel.1, he2]) ?_
                rw [hrel.2.1, hkho]
                exact List.mem_cons_self _ _
              refine ⟨kh, assignSuffixes_frame gname tl q hkh ?_, hkhne, ?_⟩
              · rw [hkhk]
                exact (List.nodup_cons.mp hSnodup).1
              · rw [hkhbare, hc]
            · exact ⟨kq, assignSuffixes_frame gname tl q hkq hmem, hkqne, hkqc⟩
      exact ih _ id c hnd' hstep
        (fun kp₀ hm hk hpost => hid kp₀ hm hk (List.mem_cons_of_mem _ hpost))
        hhold'

/-- C6: for a batch of freshly fetched playlists (unique ids, every
`unique_name` initially equal to the playlist's original name), and any
original name `g` shared by at least two playlists: the duplicate-name pass
orders the group by follower count descending with ties broken by playlist
id ascending; the first member of that order keeps the bare name `g`; every
other member ends with a name `"g (n)"` for some `n ≥ 2` such that every
smaller candidate `"g (m)"`, `2 ≤ m < n`, is held by some other playlist in
the final batch and no other playlist holds `"g (n)"`; and all unique names
in the final batch are pairwise distinct (so the group's `N` members have
`N` distinct unique names). -/
theorem duplicate_name_disambiguation
    (ps₀ : List (String × Playlist))
    (hkeys : (ps₀.map Prod.fst).Nodup)
    (hbare : ∀ kp ∈ ps₀, kp.2.unique_name = kp.2.original_name)
    (g : String) (hdup : 2 ≤ (groupIds ps₀ g).length) :
    ∃ hd tl, sortGroup ps₀ (groupIds ps₀ g) = hd :: tl ∧
      List.Perm (hd :: tl) (groupIds ps₀ g) ∧
      List.Sorted (groupLE ps₀) (hd :: tl) ∧
      (∃ kp ∈ handleDuplicateNames ps₀, kp.1 = hd ∧ kp.2.unique_name = g) ∧
      (∀ id ∈ tl, ∃ n, 2 ≤ n ∧
        (∃ kp ∈ handleDuplicateNames ps₀, kp.1 = id ∧
          kp.2.unique_name = candName g n) ∧
        (∀ m, 2 ≤ m → m < n → ∃ kq ∈ handleDuplicateNames ps₀,
          kq.1 ≠ id ∧ kq.2.unique_name = candName g m) ∧
        (∀ kq ∈ handleDuplicateNames ps₀, kq.1 ≠ id →
          kq.2.unique_name ≠ candName g n)) ∧
      (∀ kp ∈ handleDuplicateNames ps₀, ∀ kq ∈ handleDuplicateNames ps₀,
        kp.1 ≠ kq.1 → kp.2.unique_name ≠ kq.2.unique_name) := by
  have hgmem : g ∈ duplicateNames ps₀ := mem_duplicateNames hdup
  obtain ⟨pre, post, hsplit⟩ := List.append_of_mem hgmem
  have hdnodup : (duplicateNames ps₀).Nodup := duplicateNames_nodup ps₀
  rw [hsplit] at hdnodup
  have hGood₀ : Good ps₀ ps₀ (duplicateNames ps₀) := by
    refine ⟨sameShape_refl ps₀, fun kp hm _ => hbare kp hm, ?_⟩
    intro kp hkp kq hkq hne hname
    have horig : kp.2.original_name = kq.2.original_name := by
      rw [← hbare kp hkp, ← hbare kq hkq, hname]
    have hkpm : kp.1 ∈ groupIds ps₀ kp.2.original_name :=
      mem_groupIds_iff.mpr ⟨kp, hkp, rfl, rfl⟩
    have hkqm : kq.1 ∈ groupIds ps₀ kp.2.original_name :=
      mem_groupIds_iff.mpr ⟨kq, hkq, rfl, horig.symm⟩
    have hlen := two_le_length_of_two_mem hkpm hkqm hne
    refine ⟨mem_duplicateNames hlen, ?_⟩
    rw [horig] at hlen
    exact mem_duplicateNames hlen
  rw [hsplit] at hGood₀
  have hGood₁ : Good ps₀ (pre.foldl handleDuplicateGroup ps₀) (g :: post) :=
    good_iter ps₀ hkeys pre (g :: post) ps₀ hdnodup hGood₀
  set q₁ := pre.foldl handleDuplicateGroup ps₀ with hq₁def
  obtain ⟨hshape₁, hbare₁, hcoll₁⟩ := hGood₁
  have hgp := List.nodup_cons.mp hdnodup.of_append_right
  have hsortEq : sortGroup q₁ (groupIds q₁ g) =
      sortGroup ps₀ (groupIds ps₀ g) := by
    rw [← sameShape_groupIds hshape₁, ← sameShape_sortGroup hshape₁]
  cases hS : sortGroup ps₀ (groupIds ps₀ g) with
  | nil =>
      exfalso
      have hlen := (sortGroup_perm ps₀ (groupIds ps₀ g)).length_eq
      rw [hS] at hlen
      simp only [List.length_nil] at hlen
      omega
  | cons hd tl =>
      have hSq₁ : sortGroup q₁ (groupIds q₁ g) = hd :: tl := by
        rw [hsortEq, hS]
      have hSnodup : (hd :: tl).Nodup := by
        rw [← hS]
        exact (sortGroup_perm ps₀ _).symm.nodup (groupIds_nodup hkeys g)
      have hbareT : ∀ id ∈ tl, ∃ kp ∈ q₁, kp.1 = id ∧
          kp.2.original_name = g ∧ kp.2.unique_name = g := by
        intro id hid
        obtain ⟨kp, hkp, hk, ho⟩ := mem_sortGroup_entry
          (show id ∈ sortGroup q₁ (groupIds q₁ g) by
            rw [hSq₁]; exact List.mem_cons_of_mem hd hid)
        refine ⟨kp, hkp, hk, ho, ?_⟩
        rw [hbare₁ kp hkp (by rw [ho]; exact List.mem_cons_self _ _), ho]
      obtain ⟨o1, o2, o3, o4, o5⟩ := assignSuffixes_spec ps₀ hkeys g post
        hgp.1 tl q₁ hshape₁ (List.nodup_cons.mp hSnodup).2 hbareT
        (fun kp hm h => hbare₁ kp hm (List.mem_cons_of_mem _ h))
        (innerColl_of_good ⟨hshape₁, hbare₁, hcoll₁⟩)
      have hq₂eq : handleDuplicateGroup q₁ g = assignSuffixes g tl q₁ := by
        unfold handleDuplicateGroup
        rw [hSq₁]
      have hGood₂ : Good ps₀ (handleDuplicateGroup q₁ g) post :=
        handleGroup_step ps₀ hkeys g post hgp.1 q₁ ⟨hshape₁, hbare₁, hcoll₁⟩
      rw [hq₂eq] at hGood₂
      have hfinal_eq : handleDuplicateNames ps₀ =
          post.foldl handleDuplicateGroup (assignSuffixes g tl q₁) := by
        unfold handleDuplicateNames
        rw [hsplit, List.foldl_append, List.foldl_cons, ← hq₁def, hq₂eq]
      have hGood₃ : Good ps₀
          (post.foldl handleDuplicateGroup (assignSuffixes g tl q₁)) [] :=
        good_iter ps₀ hkeys post [] (assignSuffixes g tl q₁)
          (by rw [List.append_nil]; exact hgp.2)
          (by rw [List.append_nil]; exact hGood₂)
      obtain ⟨hshape₃, -, hcoll₃⟩ := hGood₃
      have hinj : ∀ kp ∈ handleDuplicateNames ps₀,
          ∀ kq ∈ handleDuplicateNames ps₀,
          kp.1 ≠ kq.1 → kp.2.unique_name ≠ kq.2.unique_name := by
        rw [hfinal_eq]
        intro kp hkp kq hkq hne he
        exact absurd (hcoll₃ kp hkp kq hkq hne he).1 (List.not_mem_nil _)
      obtain ⟨kh, hkh, hkhk, hkho⟩ := mem_sortGroup_entry
        (show hd ∈ sortGroup q₁ (groupIds q₁ g) by
          rw [hSq₁]; exact List.mem_cons_self _ _)
      have hkh_bare : kh.2.unique_name = g := by
        rw [hbare₁ kh hkh (by rw [hkho]; exact List.mem_cons_self _ _), hkho]
      have hkh_q₂ : kh ∈ assignSuffixes g tl q₁ :=
        o2 kh hkh (by rw [hkhk]; exact (List.nodup_cons.mp hSnodup).1)
      have hkh_fin : kh ∈ post.foldl handleDuplicateGroup
          (assignSuffixes g tl q₁) :=
        entry_persist ps₀ hkeys post _ kh hgp.2 hGood₂ hkh_q₂
          (by rw [hkho]; exact hgp.1)
      refine ⟨hd, tl, rfl, by rw [← hS]; exact sortGroup_perm ps₀ _,
        by rw [← hS]; exact sortGroup_sorted ps₀ _,
        ⟨kh, by rw [hfinal_eq]; exact hkh_fin, hkhk, hkh_bare⟩, ?_, hinj⟩
      intro id hid
      have hid_gid : id ∈ groupIds ps₀ g := by
        rw [← (sortGroup_perm ps₀ (groupIds ps₀ g)).mem_iff, hS]
        exact List.mem_cons_of_mem hd hid
      obtain ⟨kp₀', hkp₀', hk₀', ho₀'⟩ := mem_groupIds_iff.mp hid_gid
      obtain ⟨n, hn2, ⟨kpF, hkpF, hkeyF, hnameF⟩, hmins⟩ := o5 id hid
      have hkpF_orig : kpF.2.original_name = g := by
        obtain ⟨kp₀, hkp₀, hrel⟩ := sameShape_mem_right o1 hkpF
        have he : kp₀ = kp₀' :=
          entry_unique hkeys hkp₀ hkp₀' (by rw [hrel.1, hkeyF, ← hk₀'])
        rw [← hrel.2.1, he]
        exact ho₀'
      have hkpF_fin : kpF ∈ post.foldl handleDuplicateGroup
          (assignSuffixes g tl q₁) :=
        entry_persist ps₀ hkeys post _ kpF hgp.2 hGood₂ hkpF
          (by rw [hkpF_orig]; exact hgp.1)
      refine ⟨n, hn2, ⟨kpF, by rw [hfinal_eq]; exact hkpF_fin, hkeyF,
        hnameF⟩, ?_, ?_⟩
      · intro m h2 hlt
        obtain ⟨kq, hkq, hkqne, hkqc⟩ := hmins m h2 hlt
        have hidps₀ : ∀ kp₀ ∈ ps₀, kp₀.1 = id →
            kp₀.2.original_name ∉ post := by
          intro kp₀ hm hk hpost
          have he : kp₀ = kp₀' :=
            entry_unique hkeys hm hkp₀' (hk.trans hk₀'.symm)
          rw [he, ho₀'] at hpost
          exact hgp.1 hpost
        obtain ⟨kq', hkq', hkq'ne, hkq'c⟩ := holders_persist ps₀ hkeys post
          _ id (candName g m) hgp.2 hGood₂ hidps₀ ⟨kq, hkq, hkqne, hkqc⟩
        exact ⟨kq', by rw [hfinal_eq]; exact hkq', hkq'ne, hkq'c⟩
      · intro kq hkq hne he
        exact hinj kq hkq kpF (by rw [hfinal_eq]; exact hkpF_fin)
          (by rw [hkeyF]; exact hne) (by rw [he, hnameF])

/-- A minimal playlist record for the worked example of the spec. -/
def mkPl (name : String) (nf : Int) : Playlist :=
  { url := "u"
    original_name := name
    unique_name := name
    description := ""
    tracks := []
    snapshot_id := "s"
    num_followers := some nf
    owner := ⟨"o", "O"⟩ }

/-- Three freshly fetched playlists all named "Daily Mix": `b` and `c` tie
at 20 followers, `a` has 10. -/
def dmBatch : List (String × Playlist) :=
  [("a", mkPl "Daily Mix" 10), ("b", mkPl "Daily Mix" 20),
   ("c", mkPl "Daily Mix" 20)]

theorem duplicate_name_disambiguation_witness :
    ((dmBatch.map Prod.fst).Nodup ∧
      (∀ kp ∈ dmBatch, kp.2.unique_name = kp.2.original_name) ∧
      2 ≤ (groupIds dmBatch "Daily Mix").length) ∧
    (∃ hd tl,
      sortGroup dmBatch (groupIds dmBatch "Daily Mix") = hd :: tl ∧
      List.Perm (hd :: tl) (groupIds dmBatch "Daily Mix") ∧
      List.Sorted (groupLE dmBatch) (hd :: tl) ∧
      (∃ kp ∈ handleDuplicateNames dmBatch, kp.1 = hd ∧
        kp.2.unique_name = "Daily Mix") ∧
      (∀ id ∈ tl, ∃ n, 2 ≤ n ∧
        (∃ kp ∈ handleDuplicateNames dmBatch, kp.1 = id ∧
          kp.2.unique_name = candName "Daily Mix" n) ∧
        (∀ m, 2 ≤ m → m < n → ∃ kq ∈ handleDuplicateNames dmBatch,
          kq.1 ≠ id ∧ kq.2.unique_name = candName "Daily Mix" m) ∧
        (∀ kq ∈ handleDuplicateNames dmBatch, kq.1 ≠ id →
          kq.2.unique_name ≠ candName "Daily Mix" n)) ∧
      (∀ kp ∈ handleDuplicateNames dmBatch,
        ∀ kq ∈ handleDuplicateNames dmBatch,
        kp.1 ≠ kq.1 → kp.2.unique_name ≠ kq.2.unique_name)) :=
  ⟨⟨by decide, by decide, by decide⟩,
    duplicate_name_disambiguation dmBatch (by decide) (by decide)
      "Daily Mix" (by decide)⟩

end SPA
